import Mathlib

/-!
# Image compressor: batch conversion to WebP

A shallow embedding of the conversion pipeline of the repository
(`main.go`, `components/test-button.go`, `controllers/img-compressor.go`).

Modelling conventions.

* A Go `string` is a `List Char`, that is, valid UTF-8 text.  The scans performed by the path
  functions compare single bytes against `'/'` and `'.'`, both ASCII, so a scan over code
  points visits the same positions as a scan over bytes.
* The path functions are those of Go's `path/filepath` on a Unix system
  (separator `'/'`, no volume names).
* The operating system, the image codecs, `fmt.Sscanf` and the Unicode case table are
  parameters (`Sys`): every external call that can touch the file system is a function that
  takes the state of the world and returns a result together with the next state of the world.
  An `error` is represented by its message.
* The goroutines of the batch are interleaved by a schedule, a list that names the goroutine
  taking the next step.  A goroutine takes three steps: its call of `convertImage`, its send on
  the results channel, its write of the progress line.  Each step is atomic, and the work list
  is not edited while the batch runs.
* Besides the program state, a run records what it did (every status written, every external
  call made, the order in which goroutines finished), so that statements about what did or
  did not happen can be made.
-/

/-- A Go string, as the list of its characters. -/
abbrev GoString := List Char

/-! ## Standard-library string and path functions -/

namespace os

/-- Go `os.IsPathSeparator` on Unix. -/
def IsPathSeparator (c : Char) : Bool := c == '/'

end os

namespace strings

/-- Go `strings.HasSuffix`: `len(s) >= len(suffix) && s[len(s)-len(suffix):] == suffix`. -/
def HasSuffix (s suffix : GoString) : Bool :=
  decide (suffix.length ≤ s.length) && (s.drop (s.length - suffix.length) == suffix)

/-- Go `strings.TrimSuffix`: drop the suffix when the string ends with it. -/
def TrimSuffix (s suffix : GoString) : GoString :=
  if HasSuffix s suffix then s.take (s.length - suffix.length) else s

/-- Go `strings.HasPrefix`: `len(s) >= len(prefix) && s[:len(prefix)] == prefix`. -/
def HasPrefix (s pre : GoString) : Bool :=
  decide (pre.length ≤ s.length) && (s.take pre.length == pre)

end strings

namespace filepath

/-- The loop of Go `filepath.Ext`, walking the path from its last byte backwards.
The first argument is the part of the path not yet visited, reversed; the second is
the part already visited, `path[i+1:]`. -/
def extScan : List Char → List Char → GoString
  | [], _ => []
  | c :: before, after =>
    if os.IsPathSeparator c then []
    else if c = '.' then c :: after
    else extScan before (c :: after)

/-- Go `filepath.Ext`:
`for i := len(path) - 1; i >= 0 && !os.IsPathSeparator(path[i]); i-- {
   if path[i] == '.' { return path[i:] } }
 return ""`. -/
def Ext (path : GoString) : GoString := extScan path.reverse []

/-- Go `filepath.Base` on Unix. -/
def Base (path : GoString) : GoString :=
  if path = [] then ['.']
  else
    -- strip trailing slashes
    let path := (path.reverse.dropWhile os.IsPathSeparator).reverse
    -- find the last element
    let path := (path.reverse.takeWhile (fun c => !os.IsPathSeparator c)).reverse
    -- if empty now, it had only slashes
    if path = [] then ['/'] else path

end filepath

namespace filepath

/-- Whether reading position `r` is at the end of the path or at a separator:
`r == n || os.IsPathSeparator(path[r])`, on the unread part `path[r:]`. -/
def atEndOrSeparator : List Char → Bool
  | [] => true
  | c :: _ => os.IsPathSeparator c

/-- Whether the unread part after a first dot starts with a second dot that ends the
element: `path[r+1] == '.' && (r+2 == n || os.IsPathSeparator(path[r+2]))`, on `path[r+1:]`
(the case `r+1 == n` was taken by the `.` element before). -/
def dotThenEnd : List Char → Bool
  | c1 :: t2 => c1 = '.' && atEndOrSeparator t2
  | [] => false

/-- The backtracking loop of `Clean` for a `..` element, on the write index `w`:
`for out.w > dotdot && !os.IsPathSeparator(out.index(out.w)) { out.w-- }`. -/
def backtrack (out : List Char) (dotdot : Nat) : Nat → Nat
  | 0 => 0
  | w + 1 =>
    if dotdot < w + 1 && !os.IsPathSeparator (out.getD (w + 1) ' ') then backtrack out dotdot w
    else w + 1

/-- Whether a real path element needs a separator before it:
`rooted && out.w != 1 || !rooted && out.w != 0`. -/
def needsSeparator (rooted : Bool) (out : List Char) : Bool :=
  (rooted && out.length != 1) || (!rooted && out.length != 0)

/-- The main loop of Go `filepath.Clean`.  `rest` is the unread part `path[r:]`, `out` the
bytes written so far (`out.w = out.length`), `dotdot` the index where `..` must stop.
Every iteration reads at least one byte, so `fuel = len(path)` iterations suffice. -/
def cleanLoop (rooted : Bool) : Nat → List Char → List Char → Nat → List Char
  | 0, _, out, _ => out
  | fuel + 1, rest, out, dotdot =>
    match rest with
    | [] => out
    | c :: t =>
      if os.IsPathSeparator c then
        -- empty path element
        cleanLoop rooted fuel t out dotdot
      else if c = '.' && atEndOrSeparator t then
        -- . element
        cleanLoop rooted fuel t out dotdot
      else if c = '.' && dotThenEnd t then
        -- .. element: remove to last separator
        if dotdot < out.length then
          -- can backtrack
          cleanLoop rooted fuel (t.drop 1) (out.take (backtrack out dotdot (out.length - 1))) dotdot
        else if !rooted then
          -- cannot backtrack, but not rooted, so append .. element
          let out := if 0 < out.length then out ++ ['/'] else out
          let out := out ++ ['.', '.']
          cleanLoop rooted fuel (t.drop 1) out out.length
        else
          cleanLoop rooted fuel (t.drop 1) out dotdot
      else
        -- real path element: add slash if needed, copy element
        let out := if needsSeparator rooted out then out ++ ['/'] else out
        cleanLoop rooted fuel (rest.dropWhile (fun x => !os.IsPathSeparator x))
          (out ++ rest.takeWhile (fun x => !os.IsPathSeparator x)) dotdot

/-- The write buffer of `Clean` when its loop ends. -/
def cleanBuffer (path : GoString) : List Char :=
  let rooted := os.IsPathSeparator (path.headD ' ')
  if rooted then cleanLoop true path.length (path.drop 1) ['/'] 1
  else cleanLoop false path.length path [] 0

/-- Go `filepath.Clean` on Unix. -/
def Clean (path : GoString) : GoString :=
  if path = [] then ['.']
  else
    let out := cleanBuffer path
    -- turn empty string into "."
    if out.length = 0 then ['.'] else out

end filepath
namespace strings
/-- Go `strings.Join`. -/
def Join (elems : List GoString) (sep : GoString) : GoString := sep.intercalate elems
end strings
namespace filepath
/-- Go `filepath.Join` on Unix: clean the elements from the first non-empty one on, joined
by separators; the empty string when every element is empty. -/
def Join : List GoString → GoString
  | [] => []
  | e :: es => if e ≠ [] then Clean (strings.Join (e :: es) ['/']) else Join es
end filepath

/-! ## Output path resolution -/

/-- The literal `".webp"`. -/
def webpExt : GoString := ".webp".toList

/-- The output path of a batch task, `App.convertImages` in `main.go`:
`if outputDir != "" { base := filepath.Base(path); ext := filepath.Ext(base);
   name := strings.TrimSuffix(base, ext) + ".webp"; outputPath = filepath.Join(outputDir, name)
 } else { ext := filepath.Ext(path); outputPath = strings.TrimSuffix(path, ext) + ".webp" }`. -/
def batchOutputPath (outputDir path : GoString) : GoString :=
  if outputDir ≠ [] then
    let base := filepath.Base path
    let ext := filepath.Ext base
    let name := strings.TrimSuffix base ext ++ webpExt
    filepath.Join [outputDir, name]
  else
    let ext := filepath.Ext path
    strings.TrimSuffix path ext ++ webpExt

/-- The output path of the single-image converter, `App.convertImage` in
`components/test-button.go`: a path typed into the output field is used as it is,
and an empty field is replaced by
`strings.TrimSuffix(inputPath, filepath.Ext(inputPath)) + ".webp"`. -/
def singleOutputPath (inputPath outputPath : GoString) : GoString :=
  if outputPath = [] then
    let ext := filepath.Ext inputPath
    strings.TrimSuffix inputPath ext ++ webpExt
  else outputPath

/-! ## Lower-casing -/

namespace unicode

/-- Go `unicode.ToLower`: ASCII letters are shifted by `'a' - 'A'`, other ASCII code points are
kept, and a code point above `unicode.MaxASCII` is mapped through the Unicode case tables,
`unicode.To(unicode.LowerCase, r)`, here the parameter `caseTable`. -/
def ToLower (caseTable : Char → Char) (r : Char) : Char :=
  if r.toNat ≤ 0x7F then
    if 'A'.toNat ≤ r.toNat ∧ r.toNat ≤ 'Z'.toNat then Char.ofNat (r.toNat + ('a'.toNat - 'A'.toNat))
    else r
  else caseTable r

end unicode

namespace strings

/-- The ASCII branch of Go `strings.ToLower`: every byte in `'A'..'Z'` has `'a' - 'A'` added. -/
def lowerASCII (c : Char) : Char :=
  if 'A'.toNat ≤ c.toNat ∧ c.toNat ≤ 'Z'.toNat then Char.ofNat (c.toNat + ('a'.toNat - 'A'.toNat))
  else c

/-- Go `strings.ToLower`: a string of ASCII bytes only is returned unchanged when it has no
upper-case letter and has its upper-case letters shifted otherwise; any other string is mapped
code point by code point through `unicode.ToLower`. -/
def ToLower (caseTable : Char → Char) (s : GoString) : GoString :=
  let isASCII := s.all (fun c => decide (c.toNat < 0x80))
  let hasUpper := s.any (fun c => decide ('A'.toNat ≤ c.toNat ∧ c.toNat ≤ 'Z'.toNat))
  if isASCII then
    if !hasUpper then s else s.map lowerASCII
  else s.map (unicode.ToLower caseTable)

end strings

/-! ## The environment: operating system, codecs, standard library tables -/

/-- An external call made by a conversion or by the batch, in the order made. -/
inductive Call where
  | osStat (path : GoString)
  | osOpen (path : GoString)
  | decode (path : GoString)
  | osCreate (path : GoString)
  | webpEncode (quality : Int)
  | closeInput
  | closeOutput
  deriving DecidableEq

/-- The external functions the program calls.  An error is represented by its message
(`err.Error()`).  Every call that can touch the file system threads the `World`. -/
structure Sys (World File Image : Type) where
  /-- The Unicode lower-case table behind `unicode.ToLower` for non-ASCII code points. -/
  caseTable : Char → Char
  /-- Go `fmt.Sscanf(s, "%d", &q)`: the integer read, or `none` for an error. -/
  sscanfInt : GoString → Option Int
  /-- Go `os.Stat(path)` followed by `info.IsDir()`. -/
  osStat : GoString → World → Except GoString Bool × World
  /-- Go `os.Open`. -/
  osOpen : GoString → World → Except GoString File × World
  /-- Go `os.Create`: creates or truncates the named file. -/
  osCreate : GoString → World → Except GoString File × World
  /-- Go `(*os.File).Close`. -/
  fileClose : File → World → World
  /-- Go `jpeg.Decode`. -/
  jpegDecode : File → World → Except GoString Image × World
  /-- Go `png.Decode`. -/
  pngDecode : File → World → Except GoString Image × World
  /-- Go `bmp.Decode`. -/
  bmpDecode : File → World → Except GoString Image × World
  /-- Go `image.Decode`, which sniffs the registered formats. -/
  imageDecode : File → World → Except GoString Image × World
  /-- Go `webp.Encode(w, img, &webp.Options{Quality: quality})`; `none` is a nil error. -/
  webpEncode : File → Image → Int → World → Option GoString × World

/-! ## `controllers.DecodeImage` -/

/-- The decoders `DecodeImage` chooses between. -/
inductive Decoder where
  | jpeg
  | png
  | bmp
  | generic
  deriving DecidableEq

/-- Run one of the decoders of the environment. -/
def Sys.runDecoder {World File Image : Type} (S : Sys World File Image) :
    Decoder → File → World → Except GoString Image × World
  | .jpeg => S.jpegDecode
  | .png => S.pngDecode
  | .bmp => S.bmpDecode
  | .generic => S.imageDecode

/-- The function `controllers.DecodeImage(file, inputPath)`:
`ext := strings.ToLower(filepath.Ext(inputPath))`, a `switch ext` over `".jpg", ".jpeg"`,
`".png"`, `".bmp"` and `default`, then `if err != nil { return nil, err }; return &img, nil`. -/
def DecodeImage {World File Image : Type} (S : Sys World File Image)
    (file : File) (inputPath : GoString) (w : World) : Except GoString Image × World :=
  let ext := strings.ToLower S.caseTable (filepath.Ext inputPath)
  let r :=
    if ext = ".jpg".toList ∨ ext = ".jpeg".toList then S.jpegDecode file w
    else if ext = ".png".toList then S.pngDecode file w
    else if ext = ".bmp".toList then S.bmpDecode file w
    else S.imageDecode file w
  match r with
  | (.error err, w1) => (.error err, w1)
  | (.ok img, w1) => (.ok img, w1)

/-! ## `convertImage` (single file, `main.go`) -/

/-- The function `convertImage(inputPath, outputPath, quality)` of `main.go`.  The result is the returned
error (`none` for `nil`), the world after the call, and the external calls made, in order.
The deferred `Close` calls run when the function returns, last registered first. -/
def convertImage {World File Image : Type} (S : Sys World File Image)
    (inputPath outputPath : GoString) (quality : Int) (w : World) :
    Option GoString × World × List Call :=
  -- Open input file
  match S.osOpen inputPath w with
  | (.error err, w1) =>
    (some ("opening file: ".toList ++ err), w1, [Call.osOpen inputPath])
  | (.ok file, w1) =>
    -- Decode image
    match DecodeImage S file inputPath w1 with
    | (.error err, w2) =>
      (some ("decoding image: ".toList ++ err), S.fileClose file w2,
        [Call.osOpen inputPath, Call.decode inputPath, Call.closeInput])
    | (.ok img, w2) =>
      -- Create output file
      match S.osCreate outputPath w2 with
      | (.error err, w3) =>
        (some ("creating output: ".toList ++ err), S.fileClose file w3,
          [Call.osOpen inputPath, Call.decode inputPath, Call.osCreate outputPath,
            Call.closeInput])
      | (.ok outFile, w3) =>
        -- Encode as WebP
        match S.webpEncode outFile img quality w3 with
        | (some err, w4) =>
          (some ("encoding webp: ".toList ++ err), S.fileClose file (S.fileClose outFile w4),
            [Call.osOpen inputPath, Call.decode inputPath, Call.osCreate outputPath,
              Call.webpEncode quality, Call.closeOutput, Call.closeInput])
        | (none, w4) =>
          (none, S.fileClose file (S.fileClose outFile w4),
            [Call.osOpen inputPath, Call.decode inputPath, Call.osCreate outputPath,
              Call.webpEncode quality, Call.closeOutput, Call.closeInput])

/-! ## `App.convertImages` (the batch, `main.go`) -/

/-- The fields of `App` that the batch reads or writes.  `quality` and `outputDir` are the
texts of the two editors, `fileItems` the paths of the work list. -/
structure App where
  statusText : GoString
  fileItems : List GoString
  processing : Bool
  quality : GoString
  outputDir : GoString
  deriving DecidableEq

/-- Go `fmt.Sprintf("%d", n)` for a non-negative `n`. -/
def fmtD (n : Nat) : GoString := Nat.toDigits 10 n

/-- The progress line, `fmt.Sprintf("Converting... %d/%d", k, n)`. -/
def progressText (k n : Nat) : GoString :=
  "Converting... ".toList ++ fmtD k ++ "/".toList ++ fmtD n

/-- The completion line,
`fmt.Sprintf("Complete! %d/%d files converted successfully", k, n)`. -/
def completeText (k n : Nat) : GoString :=
  "Complete! ".toList ++ fmtD k ++ "/".toList ++ fmtD n
    ++ " files converted successfully".toList

/-- The string a task sends on the results channel:
`fmt.Sprintf("❌ %s: %v", filepath.Base(path), err)` when `err != nil`,
`fmt.Sprintf("✓ %s", filepath.Base(path))` otherwise. -/
def resultLine (path : GoString) (err : Option GoString) : GoString :=
  match err with
  | some e => "❌ ".toList ++ filepath.Base path ++ ": ".toList ++ e
  | none => "✓ ".toList ++ filepath.Base path

/-- The quality of the batch: 80 for an empty editor, otherwise the integer scanned from the
text, rejected (`none`) when `err != nil || q < 1 || q > 100`.  The accepted value is stored
as `float32(q)`, which is exact for these integers. -/
def parseQuality {World File Image : Type} (S : Sys World File Image)
    (qualityStr : GoString) : Option Int :=
  if qualityStr ≠ [] then
    match S.sscanfInt qualityStr with
    | none => none
    | some q => if q < 1 ∨ q > 100 then none else some q
  else some 80

/-- The check of the output directory: nothing is looked up for an empty text; otherwise
`info, err := os.Stat(outputDir)` and the directory is refused when
`err != nil || !info.IsDir()`. -/
def checkOutputDir {World File Image : Type} (S : Sys World File Image)
    (outputDir : GoString) (w : World) : Bool × World × List Call :=
  if outputDir ≠ [] then
    match S.osStat outputDir w with
    | (.error _, w1) => (false, w1, [Call.osStat outputDir])
    | (.ok isDir, w1) => (isDir, w1, [Call.osStat outputDir])
  else (true, w, [])

/-- Where a conversion goroutine stands. -/
inductive Pc where
  /-- started, `convertImage` not yet called -/
  | ready
  /-- the call of `convertImage` has returned, the result is not yet sent -/
  | converted
  /-- the result is on the channel, the progress line is not yet written -/
  | sent
  /-- the progress line is written and `wg.Done()` has run -/
  | done
  deriving DecidableEq

/-- One goroutine of the batch: its arguments `path` and `index`, where it stands, and what
its call of `convertImage` returned (error and external calls), once it has returned. -/
structure Worker where
  path : GoString
  index : Nat
  pc : Pc
  err : Option GoString
  calls : List Call
  deriving DecidableEq

/-- The state of a batch run, with the history of what it did. -/
structure Run (World : Type) where
  /-- the field `a.statusText` -/
  statusText : GoString
  /-- the field `a.processing` -/
  processing : Bool
  world : World
  /-- the goroutines started -/
  tasks : List Worker
  /-- the contents of the `results` channel, oldest first -/
  results : List GoString
  /-- every value assigned to `a.statusText`, in order -/
  statusLog : List GoString
  /-- every value assigned to `a.processing`, in order -/
  processingLog : List Bool
  /-- the indices of the goroutines that have finished, in order of finishing -/
  completed : List Nat
  /-- every external call, in order -/
  calls : List Call
  /-- what was passed to `log.Println` -/
  logged : List GoString
  /-- whether `convertImages` has returned -/
  returned : Bool

/-- The goroutines of `for i, item := range a.fileItems { go func(path, index) ... (item.path, i) }`,
numbered from `start`. -/
def spawn : Nat → List GoString → List Worker
  | _, [] => []
  | start, path :: rest =>
    { path := path, index := start, pc := Pc.ready, err := none, calls := [] }
      :: spawn (start + 1) rest

/-- One atomic step of goroutine number `i`; `n` is `len(a.fileItems)`.
A goroutine first resolves its output path and calls `convertImage`, then sends its result
line on the channel (which has room for every result, so the send never blocks), then writes
the progress line and finishes.  A finished goroutine, or a number that names none, leaves
the state as it is. -/
def stepTask {World File Image : Type} (S : Sys World File Image)
    (outputDir : GoString) (quality : Int) (n : Nat) (s : Run World) (i : Nat) : Run World :=
  match s.tasks[i]? with
  | none => s
  | some t =>
    match t.pc with
    | Pc.ready =>
      let outputPath := batchOutputPath outputDir t.path
      match convertImage S t.path outputPath quality s.world with
      | (err, w1, calls) =>
        { s with
          world := w1
          calls := s.calls ++ calls
          tasks := s.tasks.set i { t with pc := Pc.converted, err := err, calls := calls } }
    | Pc.converted =>
      { s with
        results := s.results ++ [resultLine t.path t.err]
        tasks := s.tasks.set i { t with pc := Pc.sent } }
    | Pc.sent =>
      { s with
        statusText := progressText (t.index + 1) n
        statusLog := s.statusLog ++ [progressText (t.index + 1) n]
        completed := s.completed ++ [t.index]
        tasks := s.tasks.set i { t with pc := Pc.done } }
    | Pc.done => s

/-- The end of `convertImages`, after `wg.Wait()` and `close(results)`: count the results that
start with `✓`, build the summary, clear the processing flag, write the final status, log the
summary. -/
def collect {World : Type} (n : Nat) (s : Run World) : Run World :=
  let successCount := s.results.countP (fun result => strings.HasPrefix result "✓".toList)
  let resultsSummary := (s.results.map (fun result => result ++ "\n".toList)).flatten
  { s with
    processing := false
    processingLog := s.processingLog ++ [false]
    statusText := completeText successCount n
    statusLog := s.statusLog ++ [completeText successCount n]
    logged := s.logged ++ [resultsSummary]
    returned := true }

/-- A call of `convertImages` that ends in validation with the status `msg`. -/
def rejected {World : Type} (a : App) (w : World) (calls : List Call) (msg : GoString) :
    Run World :=
  { statusText := msg
    processing := a.processing
    world := w
    tasks := []
    results := []
    statusLog := [msg]
    processingLog := []
    completed := []
    calls := calls
    logged := []
    returned := true }

/-- The state in which the goroutines of a validated batch start: `a.processing = true`,
`a.statusText = "Converting files..."`, an empty results channel, one goroutine per item. -/
def startState {World : Type} (a : App) (w : World) (calls : List Call) : Run World :=
  { statusText := "Converting files...".toList
    processing := true
    world := w
    tasks := spawn 0 a.fileItems
    results := []
    statusLog := ["Converting files...".toList]
    processingLog := [true]
    completed := []
    calls := calls
    logged := []
    returned := false }

/-- The method `App.convertImages`.  The goroutines run interleaved: `schedule` lists, step by step, the
number of the goroutine that takes the next step.  `wg.Wait()` returns once every goroutine
has finished; under a schedule that leaves a goroutine unfinished the call does not return
(`returned = false`) and the state is the one reached. -/
def convertImages {World File Image : Type} (S : Sys World File Image)
    (a : App) (w : World) (schedule : List Nat) : Run World :=
  if a.fileItems.length = 0 then
    rejected a w [] "Error: No files selected".toList
  else
    let qualityStr := a.quality
    let outputDir := a.outputDir
    -- Parse quality
    match parseQuality S qualityStr with
    | none => rejected a w [] "Error: Quality must be between 1 and 100".toList
    | some quality =>
      -- Validate output directory if specified
      match checkOutputDir S outputDir w with
      | (false, w1, calls) => rejected a w1 calls "Error: Invalid output directory".toList
      | (true, w1, calls) =>
        let s := schedule.foldl (stepTask S outputDir quality a.fileItems.length)
          (startState a w1 calls)
        -- Wait for all conversions to complete
        if s.tasks.all (fun t => decide (t.pc = Pc.done)) then collect a.fileItems.length s
        else s

/-! ## `App.browseFiles`: adding a path to the work list -/

/-- The end of `App.browseFiles`, once the file dialog has returned `filename`: a path that is
already in the list is refused with the status `File already in list`, any other path is
appended and the status reports it. -/
def addFile (a : App) (filename : GoString) : App :=
  if a.fileItems.any (fun path => decide (path = filename)) then
    { a with statusText := "File already in list".toList }
  else
    { a with
      fileItems := a.fileItems ++ [filename]
      statusText := "Added: ".toList ++ filepath.Base filename ++ " (Total: ".toList
        ++ fmtD (a.fileItems.length + 1) ++ " files). Click Add File to add more.".toList }

/-! ## A sample environment and work list -/

namespace Sample

/-- A small environment.  The world is the list of output files created so far.  Every file
opens and every output file is created; the JPEG decoder rejects the file `/in/3.jpg`, the
generic decoder rejects everything; `Sscanf` reads the few quality texts listed. -/
def sys : Sys (List GoString) GoString Nat :=
  { caseTable := id
    sscanfInt := fun s =>
      if s = "0".toList then some 0
      else if s = "1".toList then some 1
      else if s = "80".toList then some 80
      else if s = "90".toList then some 90
      else if s = "100".toList then some 100
      else if s = "101".toList then some 101
      else none
    osStat := fun _ w => (Except.ok true, w)
    osOpen := fun p w => (Except.ok p, w)
    osCreate := fun p w => (Except.ok p, w ++ [p])
    fileClose := fun _ w => w
    jpegDecode := fun f w =>
      if f = "/in/3.jpg".toList then (Except.error "invalid JPEG format".toList, w)
      else (Except.ok 1, w)
    pngDecode := fun _ w => (Except.ok 2, w)
    bmpDecode := fun _ w => (Except.ok 3, w)
    imageDecode := fun _ w => (Except.error "image: unknown format".toList, w)
    webpEncode := fun _ _ _ w => (none, w) }

/-- Five files, the third of which the sample JPEG decoder rejects; quality `90`, outputs
beside the inputs. -/
def app : App :=
  { statusText := "Ready to convert images. Select files to add.".toList
    fileItems := ["/in/1.jpg".toList, "/in/2.PNG".toList, "/in/3.jpg".toList,
      "/in/4.bmp".toList, "/in/5.JPEG".toList]
    processing := false
    quality := "90".toList
    outputDir := [] }

/-- Two files of one directory. -/
def pair : App :=
  { statusText := "Ready to convert images. Select files to add.".toList
    fileItems := ["/in/1.jpg".toList, "/in/2.png".toList]
    processing := false
    quality := "90".toList
    outputDir := [] }

/-- The application as `run` creates it, with quality text `80`. -/
def fresh : App :=
  { statusText := "Ready to convert images. Select files to add.".toList
    fileItems := []
    processing := false
    quality := "80".toList
    outputDir := [] }

/-- Two files of one directory that differ in their extension only, added one after the
other. -/
def clash : App := addFile (addFile fresh "/a/x.png".toList) "/a/x.jpg".toList

/-- An interleaving of five goroutines, three steps each: all convert and send before any
finishes, and they finish in the order 2, 0, 4, 1, 3. -/
def schedule : List Nat := [4, 3, 2, 1, 0, 0, 1, 2, 3, 4, 2, 0, 4, 1, 3]

/-- An interleaving of two goroutines in which the second one runs to its end first. -/
def reversed : List Nat := [1, 1, 1, 0, 0, 0]

/-- The sample environment with a generic decoder that accepts every file, as `image.Decode`
does for a WebP file once the WebP format is registered. -/
def lenient : Sys (List GoString) GoString Nat :=
  { sys with imageDecode := fun _ w => (Except.ok 4, w) }

/-- A work list of one file that is a WebP file already; outputs beside the inputs. -/
def again : App :=
  { statusText := "Ready to convert images. Select files to add.".toList
    fileItems := ["/a/x.webp".toList]
    processing := false
    quality := "80".toList
    outputDir := [] }

end Sample

/-! ## The wording of the specification, for comparison -/

namespace Spec

/-- The directory part of a path: everything up to and including the last `'/'`. -/
def dirPart (p : GoString) : GoString :=
  (p.reverse.dropWhile (fun c => c != '/')).reverse

/-- The final path element: everything after the last `'/'`. -/
def finalElement (p : GoString) : GoString :=
  (p.reverse.takeWhile (fun c => c != '/')).reverse

/-- An element with its extension removed: the part before the last dot when the
element has a dot, the whole element otherwise. -/
def stripExtension (e : GoString) : GoString :=
  if '.' ∈ e then (e.reverse.dropWhile (fun c => c != '.')).reverse.dropLast else e

/-- The file name given to the output of `p` inside an output directory: the final element
of the base name of `p` with its extension stripped, followed by `.webp`.  (The base name is
its own final element, except that the base name of a path made of slashes only is `/`,
whose final element is empty.) -/
def outputFileName (p : GoString) : GoString :=
  stripExtension (finalElement (filepath.Base p)) ++ webpExt

/-- The directory prefix of every path joined below the directory `d`: the cleaned form of
`d` as `filepath.Clean` writes it, followed by a separator unless it is empty (a relative
path that cleans to the current directory) or is the root `/`. -/
def joinPrefix (d : GoString) : GoString :=
  let buf := filepath.cleanBuffer d
  if filepath.needsSeparator (os.IsPathSeparator (d.headD ' ')) buf then buf ++ ['/'] else buf

/-- The extension of a path: the suffix that starts at the last dot of its final element,
empty when the final element has no dot. -/
def extension (p : GoString) : GoString :=
  let e := finalElement p
  if '.' ∈ e then '.' :: (e.reverse.takeWhile (fun c => c != '.')).reverse else []

/-- The decoder for a lower-cased extension: `.jpg` and `.jpeg` use the JPEG decoder, `.png`
the PNG decoder, `.bmp` the BMP decoder, anything else the generic decoder. -/
def decoderFor (lowered : GoString) : Decoder :=
  if lowered = ".jpg".toList ∨ lowered = ".jpeg".toList then Decoder.jpeg
  else if lowered = ".png".toList then Decoder.png
  else if lowered = ".bmp".toList then Decoder.bmp
  else Decoder.generic

/-- The four phases of a conversion, in the order of the specification. -/
inductive Phase where
  | opening
  | decoding
  | creating
  | encoding
  deriving DecidableEq

/-- The name a failure reason gives to a phase. -/
def Phase.label : Phase → GoString
  | Phase.opening => "opening file".toList
  | Phase.decoding => "decoding image".toList
  | Phase.creating => "creating output".toList
  | Phase.encoding => "encoding webp".toList

/-- The phases among a list of external calls, in order. -/
def phasesOf : List Call → List Phase
  | [] => []
  | Call.osOpen _ :: cs => Phase.opening :: phasesOf cs
  | Call.decode _ :: cs => Phase.decoding :: phasesOf cs
  | Call.osCreate _ :: cs => Phase.creating :: phasesOf cs
  | Call.webpEncode _ :: cs => Phase.encoding :: phasesOf cs
  | _ :: cs => phasesOf cs

end Spec


/-! ## Auxiliary notions used in the proofs about `Clean` -/

/-- A real path element for `Clean`: not empty, free of separators, neither `.` nor `..`. -/
def IsRealElement (e : GoString) : Prop :=
  e ≠ [] ∧ '/' ∉ e ∧ e ≠ ['.'] ∧ e ≠ ['.', '.']

/-- The buffer after a real element has been written behind `out`. -/
def appendElement (rooted : Bool) (out elem : List Char) : List Char :=
  (if filepath.needsSeparator rooted out then out ++ ['/'] else out) ++ elem

/-! ## Auxiliary notions used in the proofs about the batch -/

/-- The lines a goroutine has put on the results channel so far. -/
def Worker.sentLines (t : Worker) : List GoString :=
  if t.pc = Pc.sent ∨ t.pc = Pc.done then [resultLine t.path t.err] else []

/-- The index of a goroutine, once it has finished. -/
def Worker.doneIndex (t : Worker) : List Nat :=
  if t.pc = Pc.done then [t.index] else []

/-- The number of steps a goroutine has taken. -/
def Pc.rank : Pc → Nat
  | Pc.ready => 0
  | Pc.converted => 1
  | Pc.sent => 2
  | Pc.done => 3

/-- The number of steps goroutine `j` has taken; 3 when there is no such goroutine. -/
def rankAt {World : Type} (s : Run World) (j : Nat) : Nat :=
  match s.tasks[j]? with
  | some t => t.pc.rank
  | none => 3

/-- What holds of a validated batch while its goroutines run. -/
structure RunInv {World File Image : Type} (S : Sys World File Image)
    (outputDir : GoString) (quality : Int) (items : List GoString) (s : Run World) : Prop where
  paths : s.tasks.map Worker.path = items
  indices : s.tasks.map Worker.index = List.range' 0 items.length
  results : s.results.Perm (s.tasks.flatMap Worker.sentLines)
  completed : s.completed.Perm (s.tasks.flatMap Worker.doneIndex)
  statusLog : s.statusLog
    = "Converting files...".toList :: s.completed.map (fun i => progressText (i + 1) items.length)
  processing : s.processing = true
  processingLog : s.processingLog = [true]
  logged : s.logged = []
  returned : s.returned = false
  origin : ∀ t ∈ s.tasks, t.pc ≠ Pc.ready →
    ∃ w0 w1, convertImage S t.path (batchOutputPath outputDir t.path) quality w0
      = (t.err, w1, t.calls)

/-! # Proofs -/

/-! ## Lists: splitting at the first occurrence of an element -/

theorem split_first {α : Type} [DecidableEq α] (a : α) (l : List α) (h : a ∈ l) :
    ∃ s t, l = s ++ a :: t ∧ a ∉ s := by
  induction l with
  | nil => simp at h
  | cons x xs ih =>
    by_cases hx : x = a
    · exact ⟨[], xs, by simp [hx], by simp⟩
    · have : a ∈ xs := by
        rcases List.mem_cons.1 h with h | h
        · exact absurd h.symm hx
        · exact h
      obtain ⟨s, t, e, hs⟩ := ih this
      refine ⟨x :: s, t, by simp [e], ?_⟩
      simp only [List.mem_cons, not_or]
      exact ⟨fun h => hx h.symm, hs⟩

theorem dropWhile_ne_split {α : Type} [DecidableEq α] (a : α) (s t : List α) (hs : a ∉ s) :
    (s ++ a :: t).dropWhile (fun c => c != a) = a :: t := by
  induction s with
  | nil => simp [List.dropWhile]
  | cons x xs ih =>
    simp only [List.mem_cons, not_or] at hs
    have : (x != a) = true := by simp [bne_iff_ne]; exact fun h => hs.1 h.symm
    simp [List.dropWhile, this, ih hs.2]

theorem takeWhile_ne_split {α : Type} [DecidableEq α] (a : α) (s t : List α) (hs : a ∉ s) :
    (s ++ a :: t).takeWhile (fun c => c != a) = s := by
  induction s with
  | nil => simp [List.takeWhile]
  | cons x xs ih =>
    simp only [List.mem_cons, not_or] at hs
    have : (x != a) = true := by simp [bne_iff_ne]; exact fun h => hs.1 h.symm
    simp [List.takeWhile, this, ih hs.2]

theorem extScan_none (r acc : List Char)
    (h : '.' ∉ r.takeWhile (fun c => c != '/')) : filepath.extScan r acc = [] := by
  induction r generalizing acc with
  | nil => rfl
  | cons c cs ih =>
    unfold filepath.extScan
    by_cases hc : c = '/'
    · simp [os.IsPathSeparator, hc]
    · have hb : (c != '/') = true := by simpa [bne_iff_ne] using hc
      rw [List.takeWhile_cons, hb] at h
      simp only [if_true, List.mem_cons, not_or] at h
      have hd : ¬ c = '.' := fun e => h.1 e.symm
      simp [os.IsPathSeparator, hc, hd, ih _ h.2]

theorem extScan_dot (tw rest acc : List Char) (h1 : '.' ∉ tw) (h2 : '/' ∉ tw) :
    filepath.extScan (tw ++ '.' :: rest) acc = '.' :: (tw.reverse ++ acc) := by
  induction tw generalizing acc with
  | nil => simp [filepath.extScan, os.IsPathSeparator]
  | cons c cs ih =>
    simp only [List.mem_cons, not_or] at h1 h2
    have hd : ¬ c = '.' := fun e => h1.1 e.symm
    have hs : ¬ c = '/' := fun e => h2.1 e.symm
    simp [filepath.extScan, os.IsPathSeparator, hd, hs, ih _ h1.2 h2.2]

theorem trimSuffix_append (a b : GoString) : strings.TrimSuffix (a ++ b) b = a := by
  simp [strings.TrimSuffix, strings.HasSuffix]

theorem trimSuffix_nil (a : GoString) : strings.TrimSuffix a [] = a := by
  simp [strings.TrimSuffix, strings.HasSuffix]

theorem dir_final (p : GoString) : Spec.dirPart p ++ Spec.finalElement p = p := by
  unfold Spec.dirPart Spec.finalElement
  rw [← List.reverse_append, List.takeWhile_append_dropWhile, List.reverse_reverse]

theorem trimExt_webp_eq (p : GoString) :
    strings.TrimSuffix p (filepath.Ext p) ++ webpExt
      = Spec.dirPart p ++ Spec.stripExtension (Spec.finalElement p) ++ webpExt := by
  unfold filepath.Ext
  congr 1
  by_cases hdot : '.' ∈ p.reverse.takeWhile (fun c => c != '/')
  · obtain ⟨s, t, e, hs⟩ := split_first _ _ hdot
    have hsl : '/' ∉ s := by
      intro hm
      have : '/' ∈ p.reverse.takeWhile (fun c => c != '/') := by rw [e]; simp [hm]
      have := List.mem_takeWhile_imp this
      simp at this
    have hr : p.reverse = s ++ '.' :: (t ++ p.reverse.dropWhile (fun c => c != '/')) := by
      conv_lhs => rw [← List.takeWhile_append_dropWhile (fun c => c != '/') p.reverse, e]
      simp
    have hp : p = (p.reverse.dropWhile (fun c => c != '/')).reverse ++ t.reverse
        ++ ('.' :: s.reverse) := by
      have := congrArg List.reverse hr
      simpa using this
    rw [hr, extScan_dot _ _ _ hs hsl]
    simp only [List.append_nil]
    have hse : Spec.stripExtension (Spec.finalElement p) = t.reverse := by
      unfold Spec.stripExtension Spec.finalElement
      rw [List.reverse_reverse, e, dropWhile_ne_split _ _ _ hs]
      simp
    rw [hse]
    unfold Spec.dirPart
    conv_lhs => rw [hp]
    rw [trimSuffix_append]
  · rw [extScan_none _ _ hdot, trimSuffix_nil]
    have hse : Spec.stripExtension (Spec.finalElement p) = Spec.finalElement p := by
      unfold Spec.stripExtension Spec.finalElement
      simp only [List.mem_reverse, hdot, if_false]
    rw [hse, dir_final]

theorem mem_stripExtension {c : Char} {e : GoString} (h : c ∈ Spec.stripExtension e) :
    c ∈ e := by
  unfold Spec.stripExtension at h
  split at h
  · have h1 := List.dropLast_subset _ h
    rw [List.mem_reverse] at h1
    have h2 := List.dropWhile_subset _ h1
    exact List.mem_reverse.1 h2
  · exact h

theorem sep_not_mem_finalElement (p : GoString) : '/' ∉ Spec.finalElement p := by
  intro h
  unfold Spec.finalElement at h
  rw [List.mem_reverse] at h
  have := List.mem_takeWhile_imp h
  simp at this

theorem dirPart_append (p b : GoString) (hb : '/' ∉ b) :
    Spec.dirPart (Spec.dirPart p ++ b) = Spec.dirPart p := by
  unfold Spec.dirPart
  rw [List.reverse_append, List.reverse_reverse,
    List.dropWhile_append_of_pos, List.dropWhile_idempotent]
  intro a ha
  rw [List.mem_reverse] at ha
  simp only [bne_iff_ne, ne_eq]
  intro e
  exact hb (e ▸ ha)

/-! ## C1: output path beside the input -/

/-- C1. With an empty output directory the batch output path of `p` is `p` with the
extension of its final element removed and `.webp` appended: the directory part of `p`
(everything up to its last `/`) is kept as it is, followed by the final element without
the suffix that starts at its last dot, followed by `.webp`.  The single-image converter
computes the same path when its output field is empty, and `/a/b/photo.JPG` resolves to
`/a/b/photo.webp`. -/
theorem C1_output_path_same_directory (p : GoString) :
    batchOutputPath [] p
        = Spec.dirPart p ++ Spec.stripExtension (Spec.finalElement p) ++ webpExt
      ∧ Spec.dirPart p ++ Spec.finalElement p = p
      ∧ Spec.dirPart (batchOutputPath [] p) = Spec.dirPart p
      ∧ singleOutputPath p [] = batchOutputPath [] p
      ∧ batchOutputPath [] "/a/b/photo.JPG".toList = "/a/b/photo.webp".toList := by
  have h1 : batchOutputPath [] p
      = Spec.dirPart p ++ Spec.stripExtension (Spec.finalElement p) ++ webpExt := by
    simp only [batchOutputPath, ne_eq, not_true_eq_false, if_false]
    exact trimExt_webp_eq p
  refine ⟨h1, dir_final p, ?_, ?_, by decide⟩
  · rw [h1, List.append_assoc]
    apply dirPart_append
    intro h
    rcases List.mem_append.1 h with h | h
    · exact sep_not_mem_finalElement p (mem_stripExtension h)
    · revert h
      decide
  · simp [singleOutputPath, batchOutputPath]

/-! ## C2: output path inside an output directory -/

theorem atEndOrSeparator_append (t tl : List Char) :
    filepath.atEndOrSeparator (t ++ '/' :: tl) = filepath.atEndOrSeparator t := by
  cases t <;> simp [filepath.atEndOrSeparator, os.IsPathSeparator]

theorem takeWhile_notSep_append (rest tl : List Char) :
    (rest ++ '/' :: tl).takeWhile (fun x => !os.IsPathSeparator x)
      = rest.takeWhile (fun x => !os.IsPathSeparator x) := by
  induction rest with
  | nil => simp [List.takeWhile, os.IsPathSeparator]
  | cons c cs ih =>
    by_cases hc : os.IsPathSeparator c = true
    · simp [List.takeWhile, hc]
    · simp [List.takeWhile, hc, ih]

theorem dropWhile_notSep_append (rest tl : List Char) :
    (rest ++ '/' :: tl).dropWhile (fun x => !os.IsPathSeparator x)
      = rest.dropWhile (fun x => !os.IsPathSeparator x) ++ '/' :: tl := by
  induction rest with
  | nil => simp [List.dropWhile, os.IsPathSeparator]
  | cons c cs ih =>
    by_cases hc : os.IsPathSeparator c = true
    · simp [List.dropWhile, hc]
    · simp [List.dropWhile, hc, ih]

theorem length_dropWhile_le {α : Type} (q : α → Bool) (l : List α) :
    (l.dropWhile q).length ≤ l.length :=
  (List.dropWhile_sublist q).length_le

theorem cleanLoop_nil (rooted : Bool) (f : Nat) (out : List Char) (dd : Nat) :
    filepath.cleanLoop rooted f [] out dd = out := by
  cases f <;> rfl

theorem cleanLoop_cons (rooted : Bool) (f : Nat) (c : Char) (t out : List Char) (dd : Nat) :
    filepath.cleanLoop rooted (f + 1) (c :: t) out dd
      = if os.IsPathSeparator c then filepath.cleanLoop rooted f t out dd
        else if c = '.' && filepath.atEndOrSeparator t then filepath.cleanLoop rooted f t out dd
        else if c = '.' && filepath.dotThenEnd t then
          if dd < out.length then
            filepath.cleanLoop rooted f (t.drop 1)
              (out.take (filepath.backtrack out dd (out.length - 1))) dd
          else if !rooted then
            filepath.cleanLoop rooted f (t.drop 1)
              ((if 0 < out.length then out ++ ['/'] else out) ++ ['.', '.'])
              ((if 0 < out.length then out ++ ['/'] else out) ++ ['.', '.']).length
          else filepath.cleanLoop rooted f (t.drop 1) out dd
        else
          filepath.cleanLoop rooted f ((c :: t).dropWhile (fun x => !os.IsPathSeparator x))
            ((if filepath.needsSeparator rooted out then out ++ ['/'] else out)
              ++ (c :: t).takeWhile (fun x => !os.IsPathSeparator x)) dd := by
  rfl

theorem cleanLoop_real (rooted : Bool) (f : Nat) (elem out : List Char) (dd : Nat)
    (he : IsRealElement elem) :
    filepath.cleanLoop rooted (f + 1) elem out dd = appendElement rooted out elem := by
  obtain ⟨h0, hs, h1, h2⟩ := he
  have hall : ∀ a ∈ elem, (!os.IsPathSeparator a) = true := by
    intro a ha
    simp only [os.IsPathSeparator, Bool.not_eq_true', beq_eq_false_iff_ne, ne_eq]
    intro e
    exact hs (e ▸ ha)
  have htw : elem.takeWhile (fun x => !os.IsPathSeparator x) = elem := by
    rw [List.takeWhile_eq_self_iff]
    exact hall
  have hdw : elem.dropWhile (fun x => !os.IsPathSeparator x) = [] := by
    rw [List.dropWhile_eq_nil_iff]
    exact hall
  cases elem with
  | nil => exact absurd rfl h0
  | cons c t =>
    have hc : os.IsPathSeparator c = false := by
      simpa using hall c (List.mem_cons_self _ _)
    have hdot1 : (decide (c = '.') && filepath.atEndOrSeparator t) = false := by
      cases t with
      | nil =>
        have : c ≠ '.' := fun e => h1 (by rw [e])
        simp [this]
      | cons c1 t2 =>
        have : os.IsPathSeparator c1 = false := by
          simpa using hall c1 (by simp)
        simp [filepath.atEndOrSeparator, this]
    have hdot2 : (decide (c = '.') && filepath.dotThenEnd t) = false := by
      cases t with
      | nil => simp [filepath.dotThenEnd]
      | cons c1 t2 =>
        cases t2 with
        | nil =>
          have : ¬ (c = '.' ∧ c1 = '.') := fun ⟨e1, e2⟩ => h2 (by rw [e1, e2])
          simp only [filepath.dotThenEnd, filepath.atEndOrSeparator, Bool.and_true,
            Bool.and_eq_false_imp, decide_eq_true_eq, decide_eq_false_iff_not]
          exact fun e1 e2 => this ⟨e1, e2⟩
        | cons c2 t3 =>
          have : os.IsPathSeparator c2 = false := by
            simpa using hall c2 (by simp)
          simp [filepath.dotThenEnd, filepath.atEndOrSeparator, this]
    rw [cleanLoop_cons]
    simp only [hc, hdot1, hdot2, Bool.false_eq_true, if_false, htw, hdw, cleanLoop_nil]
    rfl

theorem cleanLoop_seps (rooted : Bool) (seps : List Char) (hseps : ∀ c ∈ seps, c = '/')
    (f : Nat) (elem out : List Char) (dd : Nat) :
    filepath.cleanLoop rooted (seps.length + f) (seps ++ elem) out dd
      = filepath.cleanLoop rooted f elem out dd := by
  induction seps with
  | nil => simp
  | cons c cs ih =>
    have hc : c = '/' := hseps c (List.mem_cons_self _ _)
    have : (c :: cs).length + f = (cs.length + f) + 1 := by simp; omega
    rw [this, List.cons_append, cleanLoop_cons]
    simp only [hc, os.IsPathSeparator, beq_self_eq_true, if_true]
    exact ih (fun a ha => hseps a (List.mem_cons_of_mem _ ha))

theorem dotThenEnd_append (t tl : List Char) :
    filepath.dotThenEnd (t ++ '/' :: tl) = filepath.dotThenEnd t := by
  cases t with
  | nil => simp [filepath.dotThenEnd]
  | cons c1 t2 => simp [filepath.dotThenEnd, atEndOrSeparator_append]

theorem cleanLoop_tail (rooted : Bool) (seps elem : List Char) (hseps : ∀ c ∈ seps, c = '/')
    (he : IsRealElement elem) (F : Nat) (hF : seps.length + elem.length + 1 ≤ F)
    (out : List Char) (dd : Nat) :
    filepath.cleanLoop rooted F ('/' :: (seps ++ elem)) out dd
      = appendElement rooted out elem := by
  have hpos : 0 < elem.length := List.length_pos.2 he.1
  obtain ⟨g, rfl⟩ : ∃ g, F = (seps.length + (g + 1)) + 1 := ⟨F - seps.length - 2, by omega⟩
  rw [cleanLoop_cons]
  simp only [os.IsPathSeparator, beq_self_eq_true, if_true]
  rw [cleanLoop_seps rooted seps hseps, cleanLoop_real rooted g elem out dd he]

theorem cleanLoop_append (rooted : Bool) (seps elem : List Char) (hseps : ∀ c ∈ seps, c = '/')
    (he : IsRealElement elem) (f : Nat) :
    ∀ (rest out : List Char) (dd : Nat), rest.length ≤ f →
      filepath.cleanLoop rooted (f + (seps.length + elem.length + 1))
          (rest ++ '/' :: (seps ++ elem)) out dd
        = appendElement rooted (filepath.cleanLoop rooted f rest out dd) elem := by
  induction f with
  | zero =>
    intro rest out dd hlen
    have : rest = [] := List.length_eq_zero.1 (Nat.le_zero.1 hlen)
    subst this
    rw [List.nil_append, cleanLoop_tail rooted seps elem hseps he _ (by omega), cleanLoop_nil]
  | succ f ih =>
    intro rest out dd hlen
    cases rest with
    | nil =>
      rw [List.nil_append, cleanLoop_tail rooted seps elem hseps he _ (by omega), cleanLoop_nil]
    | cons c t =>
      have ht : t.length ≤ f := by simpa using hlen
      have hfuel : f + 1 + (seps.length + elem.length + 1)
          = (f + (seps.length + elem.length + 1)) + 1 := by omega
      rw [hfuel, List.cons_append, cleanLoop_cons, cleanLoop_cons, atEndOrSeparator_append,
        dotThenEnd_append]
      by_cases h1 : os.IsPathSeparator c = true
      · rw [if_pos h1, if_pos h1]
        exact ih t out dd ht
      · rw [if_neg h1, if_neg h1]
        by_cases h2 : (decide (c = '.') && filepath.atEndOrSeparator t) = true
        · rw [if_pos h2, if_pos h2]
          exact ih t out dd ht
        · rw [if_neg h2, if_neg h2]
          by_cases h3 : (decide (c = '.') && filepath.dotThenEnd t) = true
          · have hdrop : (t ++ '/' :: (seps ++ elem)).drop 1
                = t.drop 1 ++ '/' :: (seps ++ elem) := by
              cases t with
              | nil => simp [filepath.dotThenEnd] at h3
              | cons c1 t2 => rfl
            have hd1 : (t.drop 1).length ≤ f := by
              rw [List.length_drop]
              omega
            rw [if_pos h3, if_pos h3, hdrop]
            by_cases hdd : dd < out.length
            · rw [if_pos hdd, if_pos hdd]
              exact ih _ _ _ hd1
            · rw [if_neg hdd, if_neg hdd]
              by_cases hr : (!rooted) = true
              · rw [if_pos hr, if_pos hr]
                exact ih _ _ _ hd1
              · rw [if_neg hr, if_neg hr]
                exact ih _ _ _ hd1
          · have hc : (!os.IsPathSeparator c) = true := by simpa using h1
            have hdw : ((c :: t).dropWhile (fun x => !os.IsPathSeparator x)).length ≤ f := by
              have : (c :: t).dropWhile (fun x => !os.IsPathSeparator x)
                  = t.dropWhile (fun x => !os.IsPathSeparator x) := by
                simp only [List.dropWhile, hc]
              rw [this]
              exact le_trans (length_dropWhile_le _ t) ht
            rw [if_neg h3, if_neg h3, ← List.cons_append, takeWhile_notSep_append,
              dropWhile_notSep_append]
            exact ih _ _ _ hdw

/-- The loop of `Clean` never needs more iterations than there are unread bytes: one more unit
of fuel changes nothing.  So the fuel `len(path)` given by `cleanBuffer` is enough. -/
theorem cleanLoop_fuel_succ (rooted : Bool) (f : Nat) :
    ∀ (rest out : List Char) (dd : Nat), rest.length ≤ f →
      filepath.cleanLoop rooted (f + 1) rest out dd = filepath.cleanLoop rooted f rest out dd := by
  induction f with
  | zero =>
    intro rest out dd hlen
    have : rest = [] := List.length_eq_zero.1 (Nat.le_zero.1 hlen)
    subst this
    rw [cleanLoop_nil, cleanLoop_nil]
  | succ f ih =>
    intro rest out dd hlen
    cases rest with
    | nil => rw [cleanLoop_nil, cleanLoop_nil]
    | cons c t =>
      have ht : t.length ≤ f := by simpa using hlen
      have hd1 : (t.drop 1).length ≤ f := by
        rw [List.length_drop]
        omega
      rw [cleanLoop_cons, cleanLoop_cons rooted f]
      by_cases h1 : os.IsPathSeparator c = true
      · rw [if_pos h1, if_pos h1]
        exact ih t out dd ht
      · rw [if_neg h1, if_neg h1]
        by_cases h2 : (decide (c = '.') && filepath.atEndOrSeparator t) = true
        · rw [if_pos h2, if_pos h2]
          exact ih t out dd ht
        · rw [if_neg h2, if_neg h2]
          by_cases h3 : (decide (c = '.') && filepath.dotThenEnd t) = true
          · rw [if_pos h3, if_pos h3]
            by_cases hdd : dd < out.length
            · rw [if_pos hdd, if_pos hdd]
              exact ih _ _ _ hd1
            · rw [if_neg hdd, if_neg hdd]
              by_cases hr : (!rooted) = true
              · rw [if_pos hr, if_pos hr]
                exact ih _ _ _ hd1
              · rw [if_neg hr, if_neg hr]
                exact ih _ _ _ hd1
          · have hc : (!os.IsPathSeparator c) = true := by simpa using h1
            have hdw : ((c :: t).dropWhile (fun x => !os.IsPathSeparator x)).length ≤ f := by
              have : (c :: t).dropWhile (fun x => !os.IsPathSeparator x)
                  = t.dropWhile (fun x => !os.IsPathSeparator x) := by
                simp only [List.dropWhile, hc]
              rw [this]
              exact le_trans (length_dropWhile_le _ t) ht
            rw [if_neg h3, if_neg h3]
            exact ih _ _ _ hdw

theorem cleanLoop_fuel_irrelevant (rooted : Bool) (rest out : List Char) (dd : Nat) (k : Nat) :
    filepath.cleanLoop rooted (rest.length + k) rest out dd
      = filepath.cleanLoop rooted rest.length rest out dd := by
  induction k with
  | zero => rfl
  | succ k ih =>
    rw [← Nat.add_assoc, cleanLoop_fuel_succ rooted (rest.length + k) rest out dd (by omega), ih]

theorem base_cases (p : GoString) : filepath.Base p = ['/'] ∨ '/' ∉ filepath.Base p := by
  unfold filepath.Base
  by_cases hp : p = []
  · right
    simp [hp]
  · simp only [hp, if_false]
    split
    · left
      rfl
    · right
      intro h
      rw [List.mem_reverse] at h
      have := List.mem_takeWhile_imp h
      simp [os.IsPathSeparator] at this

theorem dirPart_eq_nil (b : GoString) (hb : '/' ∉ b) : Spec.dirPart b = [] := by
  unfold Spec.dirPart
  rw [List.reverse_eq_nil_iff, List.dropWhile_eq_nil_iff]
  intro a ha
  rw [List.mem_reverse] at ha
  simp only [bne_iff_ne, ne_eq]
  intro e
  exact hb (e ▸ ha)

theorem finalElement_eq_self (b : GoString) (hb : '/' ∉ b) : Spec.finalElement b = b := by
  have h := dir_final b
  rwa [dirPart_eq_nil b hb, List.nil_append] at h

theorem sep_not_mem_outputFileName (p : GoString) : '/' ∉ Spec.outputFileName p := by
  intro h
  rcases List.mem_append.1 h with h | h
  · exact sep_not_mem_finalElement _ (mem_stripExtension h)
  · revert h
    decide

theorem outputFileName_real (p : GoString) : IsRealElement (Spec.outputFileName p) := by
  have hlen : 5 ≤ (Spec.outputFileName p).length := by
    unfold Spec.outputFileName
    rw [List.length_append]
    have : webpExt.length = 5 := by decide
    omega
  refine ⟨?_, sep_not_mem_outputFileName p, ?_, ?_⟩
  · intro e
    rw [e] at hlen
    simp at hlen
  · intro e
    rw [e] at hlen
    simp at hlen
  · intro e
    rw [e] at hlen
    simp at hlen

/-- The name built by the batch task, `strings.TrimSuffix(base, ext) + ".webp"`, is the output
file name, behind one separator when the base name is `/`. -/
theorem batch_name_eq (p : GoString) :
    ∃ seps : List Char, (∀ c ∈ seps, c = '/') ∧
      strings.TrimSuffix (filepath.Base p) (filepath.Ext (filepath.Base p)) ++ webpExt
        = seps ++ Spec.outputFileName p := by
  refine ⟨Spec.dirPart (filepath.Base p), ?_, ?_⟩
  · rcases base_cases p with h | h
    · rw [h]
      decide
    · rw [dirPart_eq_nil _ h]
      simp
  · rw [trimExt_webp_eq, List.append_assoc]
    rfl

theorem batch_name_eq_spec (p : GoString) :
    strings.TrimSuffix (filepath.Base p) (filepath.Ext (filepath.Base p)) ++ webpExt
      = Spec.stripExtension (filepath.Base p) ++ webpExt := by
  rcases base_cases p with h | h
  · rw [h]
    decide
  · rw [trimExt_webp_eq, dirPart_eq_nil _ h, finalElement_eq_self _ h, List.nil_append]

theorem clean_join (d seps elem : GoString) (hd : d ≠ []) (hseps : ∀ c ∈ seps, c = '/')
    (he : IsRealElement elem) :
    filepath.Clean (d ++ '/' :: (seps ++ elem)) = Spec.joinPrefix d ++ elem := by
  cases d with
  | nil => exact absurd rfl hd
  | cons c t =>
    have hne : appendElement (os.IsPathSeparator c) (filepath.cleanBuffer (c :: t)) elem
        = Spec.joinPrefix (c :: t) ++ elem := rfl
    have hbuf : filepath.cleanBuffer (c :: t ++ '/' :: (seps ++ elem))
        = appendElement (os.IsPathSeparator c) (filepath.cleanBuffer (c :: t)) elem := by
      unfold filepath.cleanBuffer
      have hlen : (c :: t ++ '/' :: (seps ++ elem)).length
          = (c :: t).length + (seps.length + elem.length + 1) := by
        simp
        omega
      simp only [List.cons_append, List.headD_cons] at hlen ⊢
      by_cases hc : os.IsPathSeparator c = true
      · simp only [hc, if_true, List.drop_succ_cons, List.drop_zero]
        rw [hlen]
        exact cleanLoop_append true seps elem hseps he _ _ _ _ (by simp)
      · simp only [hc, if_false]
        rw [hlen, ← List.cons_append]
        have := cleanLoop_append false seps elem hseps he (c :: t).length (c :: t) [] 0
          (le_refl _)
        simpa [hc] using this
    unfold filepath.Clean
    rw [if_neg (by simp)]
    simp only
    rw [hbuf, hne]
    have hpos : 0 < elem.length := List.length_pos.2 he.1
    rw [if_neg]
    rw [List.length_append]
    omega

theorem backtrack_ge (out : List Char) (dd w : Nat) (h : dd ≤ w) :
    dd ≤ filepath.backtrack out dd w := by
  induction w with
  | zero => simpa [filepath.backtrack] using h
  | succ w ih =>
    unfold filepath.backtrack
    split
    · rename_i hc
      simp only [Bool.and_eq_true, decide_eq_true_eq] at hc
      exact ih (by omega)
    · exact h

theorem head?_take_of_pos {α : Type} (l : List α) (n : Nat) (hn : 1 ≤ n) :
    (l.take n).head? = l.head? := by
  cases l with
  | nil => simp
  | cons a t =>
    cases n with
    | zero => omega
    | succ n => simp

theorem head?_append_of_head? {α : Type} (l m : List α) (a : α) (h : l.head? = some a) :
    (l ++ m).head? = some a := by
  cases l with
  | nil => simp at h
  | cons b t => simpa using h

/-- A rooted buffer keeps its leading separator through the whole loop of `Clean`. -/
theorem cleanLoop_rooted_head (f : Nat) :
    ∀ (rest out : List Char), out.head? = some '/' →
      (filepath.cleanLoop true f rest out 1).head? = some '/' := by
  induction f with
  | zero =>
    intro rest out h
    exact h
  | succ f ih =>
    intro rest out h
    cases rest with
    | nil => exact h
    | cons c t =>
      rw [cleanLoop_cons]
      split
      · exact ih _ _ h
      · split
        · exact ih _ _ h
        · split
          · split
            · rename_i hdd
              apply ih
              rw [head?_take_of_pos _ _ (backtrack_ge out 1 (out.length - 1) (by omega))]
              exact h
            · simp only [Bool.not_true, Bool.false_eq_true, if_false]
              exact ih _ _ h
          · apply ih
            apply head?_append_of_head?
            split
            · exact head?_append_of_head? _ _ _ h
            · exact h

theorem joinPrefix_shape (d : GoString) :
    Spec.joinPrefix d = [] ∨ ∃ x, Spec.joinPrefix d = x ++ ['/'] := by
  unfold Spec.joinPrefix
  simp only
  split
  · exact Or.inr ⟨_, rfl⟩
  · rename_i hn
    by_cases hr : os.IsPathSeparator (d.headD ' ') = true
    · right
      refine ⟨[], ?_⟩
      have hl : (filepath.cleanBuffer d).length = 1 := by
        unfold filepath.needsSeparator at hn
        rw [hr] at hn
        simpa using hn
      have hh : (filepath.cleanBuffer d).head? = some '/' := by
        unfold filepath.cleanBuffer
        simp only [hr, if_true]
        exact cleanLoop_rooted_head _ _ _ rfl
      match hb : filepath.cleanBuffer d, hl, hh with
      | [a], _, hh' =>
        simp only [List.head?_cons, Option.some.injEq] at hh'
        rw [hh']
        rfl
    · left
      have hl : (filepath.cleanBuffer d).length = 0 := by
        unfold filepath.needsSeparator at hn
        rw [Bool.eq_false_iff.2 hr] at hn
        simpa using hn
      exact List.length_eq_zero.1 hl

theorem finalElement_prefix_append (pre name : GoString)
    (hpre : pre = [] ∨ ∃ x, pre = x ++ ['/']) (hname : '/' ∉ name) :
    Spec.finalElement (pre ++ name) = name ∧ Spec.dirPart (pre ++ name) = pre := by
  rcases hpre with h | ⟨x, h⟩
  · subst h
    exact ⟨finalElement_eq_self _ hname, dirPart_eq_nil _ hname⟩
  · subst h
    have hrev : (x ++ ['/'] ++ name).reverse = name.reverse ++ '/' :: x.reverse := by simp
    have hn : '/' ∉ name.reverse := fun hm => hname (List.mem_reverse.1 hm)
    constructor
    · unfold Spec.finalElement
      rw [hrev, takeWhile_ne_split _ _ _ hn, List.reverse_reverse]
    · unfold Spec.dirPart
      rw [hrev, dropWhile_ne_split _ _ _ hn]
      simp

/-- Inside a directory, the output path is the prefix of the directory followed by the
output file name. -/
theorem batchOutputPath_in_dir (d p : GoString) (hd : d ≠ []) :
    batchOutputPath d p = Spec.joinPrefix d ++ Spec.outputFileName p := by
  obtain ⟨seps, hseps, hname⟩ := batch_name_eq p
  simp only [batchOutputPath, ne_eq, hd, not_false_eq_true, if_true, filepath.Join,
    strings.Join, hname]
  have : List.intercalate ['/'] [d, seps ++ Spec.outputFileName p]
      = d ++ '/' :: (seps ++ Spec.outputFileName p) := by
    simp [List.intercalate, List.intersperse]
  rw [this]
  exact clean_join d seps _ hd hseps (outputFileName_real p)

/-- C2. With a non-empty output directory `d`, the batch output path of `p` is the join
(Go `filepath.Join`, which cleans its result) of `d` with the base name of `p`, extension
stripped, followed by `.webp`.  The result is a directory prefix that depends on `d` alone
followed by a file name without any separator, which is the final element of the result: no
directory component of `p` survives.  `/a/b/photo.JPG` with directory `/out` resolves to
`/out/photo.webp`. -/
theorem C2_output_path_in_directory (d p : GoString) (hd : d ≠ []) :
    batchOutputPath d p
        = filepath.Join [d, Spec.stripExtension (filepath.Base p) ++ webpExt]
      ∧ batchOutputPath d p = Spec.joinPrefix d ++ Spec.outputFileName p
      ∧ '/' ∉ Spec.outputFileName p
      ∧ Spec.finalElement (batchOutputPath d p) = Spec.outputFileName p
      ∧ Spec.dirPart (batchOutputPath d p) = Spec.joinPrefix d
      ∧ batchOutputPath "/out".toList "/a/b/photo.JPG".toList = "/out/photo.webp".toList := by
  have h2 := batchOutputPath_in_dir d p hd
  have hfd := finalElement_prefix_append _ _ (joinPrefix_shape d) (sep_not_mem_outputFileName p)
  refine ⟨?_, h2, sep_not_mem_outputFileName p, ?_, ?_, by decide⟩
  · simp only [batchOutputPath, ne_eq, hd, not_false_eq_true, if_true, batch_name_eq_spec]
  · rw [h2]
    exact hfd.1
  · rw [h2]
    exact hfd.2

theorem C2_output_path_in_directory_witness :
    "/out/".toList ≠ []
      ∧ batchOutputPath "/out/".toList "/a/b/photo.JPG".toList
          = Spec.joinPrefix "/out/".toList ++ Spec.outputFileName "/a/b/photo.JPG".toList :=
  ⟨by decide, (C2_output_path_in_directory "/out/".toList "/a/b/photo.JPG".toList
    (by decide)).2.1⟩

/-! ## C3: the decoder is chosen by the lower-cased extension -/

theorem ext_eq_extension (p : GoString) : filepath.Ext p = Spec.extension p := by
  unfold filepath.Ext Spec.extension Spec.finalElement
  simp only [List.mem_reverse, List.reverse_reverse]
  by_cases hdot : '.' ∈ p.reverse.takeWhile (fun c => c != '/')
  · obtain ⟨s, t, e, hs⟩ := split_first _ _ hdot
    have hsl : '/' ∉ s := by
      intro hm
      have : '/' ∈ p.reverse.takeWhile (fun c => c != '/') := by rw [e]; simp [hm]
      have := List.mem_takeWhile_imp this
      simp at this
    have hr : p.reverse = s ++ '.' :: (t ++ p.reverse.dropWhile (fun c => c != '/')) := by
      conv_lhs => rw [← List.takeWhile_append_dropWhile (fun c => c != '/') p.reverse, e]
      simp
    rw [if_pos hdot, e, takeWhile_ne_split _ _ _ hs, hr, extScan_dot _ _ _ hs hsl]
    simp
  · rw [if_neg hdot, extScan_none _ _ hdot]

theorem lowerASCII_of_not_upper (c : Char)
    (h : ¬ ('A'.toNat ≤ c.toNat ∧ c.toNat ≤ 'Z'.toNat)) : strings.lowerASCII c = c := by
  unfold strings.lowerASCII
  rw [if_neg h]

theorem ascii_of_lowerASCII (c : Char) (h : (strings.lowerASCII c).toNat < 0x80) :
    c.toNat < 0x80 := by
  by_cases hu : 'A'.toNat ≤ c.toNat ∧ c.toNat ≤ 'Z'.toNat
  · have : 'Z'.toNat = 90 := by decide
    omega
  · rwa [lowerASCII_of_not_upper c hu] at h

theorem toLower_of_ascii (tbl : Char → Char) (s : GoString) (h : ∀ c ∈ s, c.toNat < 0x80) :
    strings.ToLower tbl s = s.map strings.lowerASCII := by
  unfold strings.ToLower
  have h1 : s.all (fun c => decide (c.toNat < 0x80)) = true := by
    rw [List.all_eq_true]
    intro c hc
    exact decide_eq_true (h c hc)
  simp only [h1, if_true]
  split
  · rename_i hu
    have hu' : ∀ c ∈ s, ¬ ('A'.toNat ≤ c.toNat ∧ c.toNat ≤ 'Z'.toNat) := by
      intro c hc hcu
      have : s.any (fun c => decide ('A'.toNat ≤ c.toNat ∧ c.toNat ≤ 'Z'.toNat)) = true := by
        rw [List.any_eq_true]
        exact ⟨c, hc, decide_eq_true hcu⟩
      rw [this] at hu
      simp at hu
    symm
    calc s.map strings.lowerASCII = s.map id :=
          List.map_congr_left (fun c hc => lowerASCII_of_not_upper c (hu' c hc))
      _ = s := List.map_id s
  · rfl

/-- An extension that spells an ASCII word in any letter case lower-cases to that word. -/
theorem toLower_of_variant (tbl : Char → Char) (s word : GoString)
    (hw : ∀ c ∈ word, c.toNat < 0x80) (h : s.map strings.lowerASCII = word) :
    strings.ToLower tbl s = word := by
  rw [toLower_of_ascii tbl s, h]
  intro c hc
  apply ascii_of_lowerASCII
  apply hw
  rw [← h]
  exact List.mem_map_of_mem _ hc

theorem decodeImage_eq {World File Image : Type} (S : Sys World File Image)
    (file : File) (p : GoString) (w : World) :
    DecodeImage S file p w
      = S.runDecoder (Spec.decoderFor (strings.ToLower S.caseTable (filepath.Ext p))) file w := by
  unfold DecodeImage Spec.decoderFor
  simp only
  have hid : ∀ r : Except GoString Image × World,
      (match r with
        | (.error err, w1) => ((.error err : Except GoString Image), w1)
        | (.ok img, w1) => (.ok img, w1)) = r := by
    intro r
    rcases r with ⟨_ | _, _⟩ <;> rfl
  rw [hid]
  by_cases h1 : strings.ToLower S.caseTable (filepath.Ext p) = ".jpg".toList
      ∨ strings.ToLower S.caseTable (filepath.Ext p) = ".jpeg".toList
  · rw [if_pos h1, if_pos h1]
    rfl
  · rw [if_neg h1, if_neg h1]
    by_cases h2 : strings.ToLower S.caseTable (filepath.Ext p) = ".png".toList
    · rw [if_pos h2, if_pos h2]
      rfl
    · rw [if_neg h2, if_neg h2]
      by_cases h3 : strings.ToLower S.caseTable (filepath.Ext p) = ".bmp".toList
      · rw [if_pos h3, if_pos h3]
        rfl
      · rw [if_neg h3, if_neg h3]
        rfl

/-- C3. `DecodeImage` runs exactly one decoder, chosen from the lower-cased extension of the
path alone, and returns whatever that decoder returns (its error, or its image).  An
extension spelling `.jpg` or `.jpeg` in any letter case selects the JPEG decoder, `.png` the
PNG decoder, `.bmp` the BMP decoder; a path without extension, and every extension whose
lower-cased form is none of the four, selects the generic decoder. -/
theorem C3_decoder_by_lowercased_extension {World File Image : Type}
    (S : Sys World File Image) (file : File) (p : GoString) (w : World) :
    DecodeImage S file p w
        = S.runDecoder (Spec.decoderFor (strings.ToLower S.caseTable (Spec.extension p))) file w
      ∧ ((Spec.extension p).map strings.lowerASCII = ".jpg".toList
            ∨ (Spec.extension p).map strings.lowerASCII = ".jpeg".toList →
          DecodeImage S file p w = S.jpegDecode file w)
      ∧ ((Spec.extension p).map strings.lowerASCII = ".png".toList →
          DecodeImage S file p w = S.pngDecode file w)
      ∧ ((Spec.extension p).map strings.lowerASCII = ".bmp".toList →
          DecodeImage S file p w = S.bmpDecode file w)
      ∧ (Spec.extension p = [] → DecodeImage S file p w = S.imageDecode file w)
      ∧ (strings.ToLower S.caseTable (Spec.extension p) ∉
            [".jpg".toList, ".jpeg".toList, ".png".toList, ".bmp".toList] →
          DecodeImage S file p w = S.imageDecode file w) := by
  have key := decodeImage_eq S file p w
  rw [ext_eq_extension] at key
  refine ⟨key, ?_, ?_, ?_, ?_, ?_⟩
  · intro h
    rw [key]
    rcases h with h | h
    · rw [toLower_of_variant S.caseTable _ _ (by decide) h]
      rfl
    · rw [toLower_of_variant S.caseTable _ _ (by decide) h]
      rfl
  · intro h
    rw [key, toLower_of_variant S.caseTable _ _ (by decide) h]
    rfl
  · intro h
    rw [key, toLower_of_variant S.caseTable _ _ (by decide) h]
    rfl
  · intro h
    rw [key, h]
    rfl
  · intro h
    rw [key]
    simp only [List.mem_cons, List.mem_singleton, not_or, List.not_mem_nil, or_false] at h
    unfold Spec.decoderFor
    rw [if_neg (not_or.2 ⟨h.1, h.2.1⟩), if_neg h.2.2.1, if_neg h.2.2.2]
    rfl

theorem C3_decoder_by_lowercased_extension_witness :
    (Spec.extension "/a/b/photo.JpG".toList).map strings.lowerASCII = ".jpg".toList
      ∧ DecodeImage Sample.sys "/a/b/photo.JpG".toList "/a/b/photo.JpG".toList []
          = (Except.ok 1, []) :=
  ⟨by decide, (C3_decoder_by_lowercased_extension Sample.sys _ _ _).2.1 (Or.inl (by decide))⟩

/-! ## C4: the phases of a single conversion -/

theorem hasPrefix_append (pre rest : GoString) : strings.HasPrefix (pre ++ rest) pre = true := by
  simp [strings.HasPrefix]

/-- The five ways a call of `convertImage` can go: the first failing step among open, decode,
create, encode, or none. -/
theorem convertImage_cases {World File Image : Type}
    (S : Sys World File Image) (inputPath outputPath : GoString) (quality : Int) (w : World) :
    ((∃ e w1, S.osOpen inputPath w = (Except.error e, w1)
        ∧ convertImage S inputPath outputPath quality w
            = (some ("opening file".toList ++ (": ".toList ++ e)), w1, [Call.osOpen inputPath]))
      ∨ (∃ file w1 e w2, S.osOpen inputPath w = (Except.ok file, w1)
        ∧ DecodeImage S file inputPath w1 = (Except.error e, w2)
        ∧ convertImage S inputPath outputPath quality w
            = (some ("decoding image".toList ++ (": ".toList ++ e)), S.fileClose file w2,
                [Call.osOpen inputPath, Call.decode inputPath, Call.closeInput]))
      ∨ (∃ file w1 img w2 e w3, S.osOpen inputPath w = (Except.ok file, w1)
        ∧ DecodeImage S file inputPath w1 = (Except.ok img, w2)
        ∧ S.osCreate outputPath w2 = (Except.error e, w3)
        ∧ convertImage S inputPath outputPath quality w
            = (some ("creating output".toList ++ (": ".toList ++ e)), S.fileClose file w3,
                [Call.osOpen inputPath, Call.decode inputPath, Call.osCreate outputPath,
                  Call.closeInput]))
      ∨ (∃ file w1 img w2 outFile w3 e w4, S.osOpen inputPath w = (Except.ok file, w1)
        ∧ DecodeImage S file inputPath w1 = (Except.ok img, w2)
        ∧ S.osCreate outputPath w2 = (Except.ok outFile, w3)
        ∧ S.webpEncode outFile img quality w3 = (some e, w4)
        ∧ convertImage S inputPath outputPath quality w
            = (some ("encoding webp".toList ++ (": ".toList ++ e)),
                S.fileClose file (S.fileClose outFile w4),
                [Call.osOpen inputPath, Call.decode inputPath, Call.osCreate outputPath,
                  Call.webpEncode quality, Call.closeOutput, Call.closeInput]))
      ∨ (∃ file w1 img w2 outFile w3 w4, S.osOpen inputPath w = (Except.ok file, w1)
        ∧ DecodeImage S file inputPath w1 = (Except.ok img, w2)
        ∧ S.osCreate outputPath w2 = (Except.ok outFile, w3)
        ∧ S.webpEncode outFile img quality w3 = (none, w4)
        ∧ convertImage S inputPath outputPath quality w
            = (none, S.fileClose file (S.fileClose outFile w4),
                [Call.osOpen inputPath, Call.decode inputPath, Call.osCreate outputPath,
                  Call.webpEncode quality, Call.closeOutput, Call.closeInput]))) := by
  rcases h1 : S.osOpen inputPath w with ⟨e1 | file, w1⟩
  · refine Or.inl ⟨e1, w1, rfl, ?_⟩
    simp only [convertImage, h1]
    rfl
  · rcases h2 : DecodeImage S file inputPath w1 with ⟨e2 | img, w2⟩
    · refine Or.inr (Or.inl ⟨file, w1, e2, w2, rfl, h2, ?_⟩)
      simp only [convertImage, h1, h2]
      rfl
    · rcases h3 : S.osCreate outputPath w2 with ⟨e3 | outFile, w3⟩
      · refine Or.inr (Or.inr (Or.inl ⟨file, w1, img, w2, e3, w3, rfl, h2, h3, ?_⟩))
        simp only [convertImage, h1, h2, h3]
        rfl
      · rcases h4 : S.webpEncode outFile img quality w3 with ⟨_ | e4, w4⟩
        · refine Or.inr (Or.inr (Or.inr (Or.inr
            ⟨file, w1, img, w2, outFile, w3, w4, rfl, h2, h3, h4, ?_⟩)))
          simp only [convertImage, h1, h2, h3, h4]
        · refine Or.inr (Or.inr (Or.inr (Or.inl
            ⟨file, w1, img, w2, outFile, w3, e4, w4, rfl, h2, h3, h4, ?_⟩)))
          simp only [convertImage, h1, h2, h3, h4]
          rfl

/-- C4. `convertImage` performs open, decode, create output, encode in that order and stops at
the first step that fails: exactly one of five cases holds.  In each failure case the returned
message is the name of the failing phase followed by the step's own error, the calls made are
those up to the failing step (followed only by closing what was opened), so `os.Create` is not
called when opening or decoding fails; no error is returned exactly in the fifth case, where
all four steps succeed. -/
theorem C4_convertImage_stops_at_first_failure {World File Image : Type}
    (S : Sys World File Image) (inputPath outputPath : GoString) (quality : Int) (w : World) :
    ((∃ e w1, S.osOpen inputPath w = (Except.error e, w1)
        ∧ convertImage S inputPath outputPath quality w
            = (some ("opening file".toList ++ (": ".toList ++ e)), w1, [Call.osOpen inputPath]))
      ∨ (∃ file w1 e w2, S.osOpen inputPath w = (Except.ok file, w1)
        ∧ DecodeImage S file inputPath w1 = (Except.error e, w2)
        ∧ convertImage S inputPath outputPath quality w
            = (some ("decoding image".toList ++ (": ".toList ++ e)), S.fileClose file w2,
                [Call.osOpen inputPath, Call.decode inputPath, Call.closeInput]))
      ∨ (∃ file w1 img w2 e w3, S.osOpen inputPath w = (Except.ok file, w1)
        ∧ DecodeImage S file inputPath w1 = (Except.ok img, w2)
        ∧ S.osCreate outputPath w2 = (Except.error e, w3)
        ∧ convertImage S inputPath outputPath quality w
            = (some ("creating output".toList ++ (": ".toList ++ e)), S.fileClose file w3,
                [Call.osOpen inputPath, Call.decode inputPath, Call.osCreate outputPath,
                  Call.closeInput]))
      ∨ (∃ file w1 img w2 outFile w3 e w4, S.osOpen inputPath w = (Except.ok file, w1)
        ∧ DecodeImage S file inputPath w1 = (Except.ok img, w2)
        ∧ S.osCreate outputPath w2 = (Except.ok outFile, w3)
        ∧ S.webpEncode outFile img quality w3 = (some e, w4)
        ∧ convertImage S inputPath outputPath quality w
            = (some ("encoding webp".toList ++ (": ".toList ++ e)),
                S.fileClose file (S.fileClose outFile w4),
                [Call.osOpen inputPath, Call.decode inputPath, Call.osCreate outputPath,
                  Call.webpEncode quality, Call.closeOutput, Call.closeInput]))
      ∨ (∃ file w1 img w2 outFile w3 w4, S.osOpen inputPath w = (Except.ok file, w1)
        ∧ DecodeImage S file inputPath w1 = (Except.ok img, w2)
        ∧ S.osCreate outputPath w2 = (Except.ok outFile, w3)
        ∧ S.webpEncode outFile img quality w3 = (none, w4)
        ∧ convertImage S inputPath outputPath quality w
            = (none, S.fileClose file (S.fileClose outFile w4),
                [Call.osOpen inputPath, Call.decode inputPath, Call.osCreate outputPath,
                  Call.webpEncode quality, Call.closeOutput, Call.closeInput])))
    ∧ Spec.phasesOf (convertImage S inputPath outputPath quality w).2.2
        <+: [Spec.Phase.opening, Spec.Phase.decoding, Spec.Phase.creating, Spec.Phase.encoding]
    ∧ (∀ msg, (convertImage S inputPath outputPath quality w).1 = some msg →
        ∃ ph, (Spec.phasesOf (convertImage S inputPath outputPath quality w).2.2).getLast?
            = some ph ∧ strings.HasPrefix msg ph.label = true)
    ∧ ((convertImage S inputPath outputPath quality w).1 = none ↔
        ∃ file w1 img w2 outFile w3 w4, S.osOpen inputPath w = (Except.ok file, w1)
          ∧ DecodeImage S file inputPath w1 = (Except.ok img, w2)
          ∧ S.osCreate outputPath w2 = (Except.ok outFile, w3)
          ∧ S.webpEncode outFile img quality w3 = (none, w4))
    ∧ (Spec.Phase.creating ∉ Spec.phasesOf (convertImage S inputPath outputPath quality w).2.2 ↔
        (∃ e w1, S.osOpen inputPath w = (Except.error e, w1))
          ∨ ∃ file w1 e w2, S.osOpen inputPath w = (Except.ok file, w1)
              ∧ DecodeImage S file inputPath w1 = (Except.error e, w2)) := by
  have hcases := convertImage_cases S inputPath outputPath quality w
  refine ⟨hcases, ?_, ?_, ?_, ?_⟩
  · rcases hcases with ⟨_, _, _, hc⟩ | ⟨_, _, _, _, _, _, hc⟩ | ⟨_, _, _, _, _, _, _, _, _, hc⟩
      | ⟨_, _, _, _, _, _, _, _, _, _, _, _, hc⟩ | ⟨_, _, _, _, _, _, _, _, _, _, _, hc⟩ <;>
    · rw [hc]
      simp only [Spec.phasesOf]
      decide
  · intro msg hm
    rcases hcases with ⟨_, _, _, hc⟩ | ⟨_, _, _, _, _, _, hc⟩ | ⟨_, _, _, _, _, _, _, _, _, hc⟩
      | ⟨_, _, _, _, _, _, _, _, _, _, _, _, hc⟩ | ⟨_, _, _, _, _, _, _, _, _, _, _, hc⟩
    · rw [hc] at hm ⊢
      cases hm
      exact ⟨Spec.Phase.opening, rfl, hasPrefix_append _ _⟩
    · rw [hc] at hm ⊢
      cases hm
      exact ⟨Spec.Phase.decoding, rfl, hasPrefix_append _ _⟩
    · rw [hc] at hm ⊢
      cases hm
      exact ⟨Spec.Phase.creating, rfl, hasPrefix_append _ _⟩
    · rw [hc] at hm ⊢
      cases hm
      exact ⟨Spec.Phase.encoding, rfl, hasPrefix_append _ _⟩
    · rw [hc] at hm
      cases hm
  · constructor
    · intro hnone
      rcases hcases with ⟨_, _, _, hc⟩ | ⟨_, _, _, _, _, _, hc⟩ | ⟨_, _, _, _, _, _, _, _, _, hc⟩
        | ⟨_, _, _, _, _, _, _, _, _, _, _, _, hc⟩
        | ⟨file, w1, img, w2, outFile, w3, w4, h1, h2, h3, h4, hc⟩
      · rw [hc] at hnone
        cases hnone
      · rw [hc] at hnone
        cases hnone
      · rw [hc] at hnone
        cases hnone
      · rw [hc] at hnone
        cases hnone
      · exact ⟨file, w1, img, w2, outFile, w3, w4, h1, h2, h3, h4⟩
    · rintro ⟨file, w1, img, w2, outFile, w3, w4, h1, h2, h3, h4⟩
      simp only [convertImage, h1, h2, h3, h4]
  · constructor
    · intro hnot
      rcases hcases with ⟨e, w1, h1, _⟩ | ⟨file, w1, e, w2, h1, h2, _⟩
        | ⟨_, _, _, _, _, _, _, _, _, hc⟩
        | ⟨_, _, _, _, _, _, _, _, _, _, _, _, hc⟩ | ⟨_, _, _, _, _, _, _, _, _, _, _, hc⟩
      · exact Or.inl ⟨e, w1, h1⟩
      · exact Or.inr ⟨file, w1, e, w2, h1, h2⟩
      · rw [hc] at hnot
        exact absurd (by simp only [Spec.phasesOf]; decide) hnot
      · rw [hc] at hnot
        exact absurd (by simp only [Spec.phasesOf]; decide) hnot
      · rw [hc] at hnot
        exact absurd (by simp only [Spec.phasesOf]; decide) hnot
    · rintro (⟨e, w1, h1⟩ | ⟨file, w1, e, w2, h1, h2⟩)
      · simp only [convertImage, h1, Spec.phasesOf]
        decide
      · simp only [convertImage, h1, h2, Spec.phasesOf]
        decide

theorem C4_convertImage_stops_at_first_failure_witness :
    (convertImage Sample.sys "/in/3.jpg".toList "/in/3.webp".toList 90 []).1
        = some "decoding image: invalid JPEG format".toList
      ∧ ∃ ph, (Spec.phasesOf
            (convertImage Sample.sys "/in/3.jpg".toList "/in/3.webp".toList 90 []).2.2).getLast?
          = some ph
        ∧ strings.HasPrefix "decoding image: invalid JPEG format".toList ph.label = true :=
  ⟨by decide, (C4_convertImage_stops_at_first_failure Sample.sys "/in/3.jpg".toList
    "/in/3.webp".toList 90 []).2.2.1 _ (by decide)⟩

/-! ## C7: an empty work list is refused -/

theorem complete_ne_of_head (msg : GoString) (k n : Nat) (h : msg.head? ≠ some 'C') :
    msg ≠ completeText k n := by
  intro e
  apply h
  rw [e]
  rfl

/-- C7. Whatever the quality and output directory, `convertImages` on an empty work list
stops in validation: the only thing it does is to set the status `Error: No files selected`.
No goroutine is started, no external call is made, the processing flag is not written, nothing
is logged, and no completion summary is ever written to the status. -/
theorem C7_empty_worklist_rejected {World File Image : Type} (S : Sys World File Image)
    (a : App) (w : World) (schedule : List Nat) (h : a.fileItems = []) :
    convertImages S a w schedule = rejected a w [] "Error: No files selected".toList
      ∧ (convertImages S a w schedule).statusText = "Error: No files selected".toList
      ∧ (convertImages S a w schedule).statusLog = ["Error: No files selected".toList]
      ∧ (convertImages S a w schedule).tasks = []
      ∧ (convertImages S a w schedule).calls = []
      ∧ (convertImages S a w schedule).processingLog = []
      ∧ (convertImages S a w schedule).processing = a.processing
      ∧ (convertImages S a w schedule).logged = []
      ∧ ∀ k n, completeText k n ∉ (convertImages S a w schedule).statusLog := by
  have hr : convertImages S a w schedule = rejected a w [] "Error: No files selected".toList := by
    simp [convertImages, h]
  rw [hr]
  refine ⟨rfl, rfl, rfl, rfl, rfl, rfl, rfl, rfl, ?_⟩
  intro k n hm
  simp only [rejected, List.mem_singleton] at hm
  exact complete_ne_of_head _ k n (by decide) hm.symm

theorem C7_empty_worklist_rejected_witness :
    ({ Sample.app with fileItems := [] } : App).fileItems = []
      ∧ (convertImages Sample.sys { Sample.app with fileItems := [] } [] [0, 0, 0]).statusText
          = "Error: No files selected".toList :=
  ⟨rfl, (C7_empty_worklist_rejected Sample.sys { Sample.app with fileItems := [] } [] [0, 0, 0]
    rfl).2.1⟩

/-! ## The batch: what every interleaving preserves -/

theorem set_decomp {α : Type} (l : List α) (i : Nat) (t : α) (h : l[i]? = some t) :
    ∃ l1 l2, l = l1 ++ t :: l2 ∧ l1.length = i ∧ ∀ t', l.set i t' = l1 ++ t' :: l2 := by
  induction l generalizing i with
  | nil => simp at h
  | cons x xs ih =>
    cases i with
    | zero =>
      simp only [List.getElem?_cons_zero, Option.some.injEq] at h
      subst h
      exact ⟨[], xs, rfl, rfl, fun _ => rfl⟩
    | succ i =>
      simp only [List.getElem?_cons_succ] at h
      obtain ⟨l1, l2, e, hlen, hs⟩ := ih i h
      refine ⟨x :: l1, l2, by rw [e]; rfl, by simp [hlen], fun t' => ?_⟩
      rw [List.set_cons_succ, hs t']
      rfl

theorem spawn_paths (k : Nat) (items : List GoString) :
    (spawn k items).map Worker.path = items := by
  induction items generalizing k with
  | nil => rfl
  | cons p ps ih => simp [spawn, ih]

theorem spawn_indices (k : Nat) (items : List GoString) :
    (spawn k items).map Worker.index = List.range' k items.length := by
  induction items generalizing k with
  | nil => rfl
  | cons p ps ih => simp [spawn, ih, List.range'_succ]

theorem spawn_ready (k : Nat) (items : List GoString) :
    ∀ t ∈ spawn k items, t.pc = Pc.ready := by
  induction items generalizing k with
  | nil => simp [spawn]
  | cons p ps ih =>
    intro t ht
    simp only [spawn, List.mem_cons] at ht
    rcases ht with h | h
    · rw [h]
    · exact ih _ t h

theorem flatMap_eq_nil_of_forall {α β : Type} (l : List α) (f : α → List β)
    (h : ∀ t ∈ l, f t = []) : l.flatMap f = [] := by
  induction l with
  | nil => rfl
  | cons x xs ih =>
    rw [List.flatMap_cons, h x (List.mem_cons_self _ _),
      ih (fun t ht => h t (List.mem_cons_of_mem _ ht))]
    rfl

theorem startState_inv {World File Image : Type} (S : Sys World File Image)
    (outputDir : GoString) (quality : Int) (a : App) (w : World) (calls : List Call) :
    RunInv S outputDir quality a.fileItems (startState a w calls) where
  paths := spawn_paths 0 _
  indices := spawn_indices 0 _
  results := by
    have : (spawn 0 a.fileItems).flatMap Worker.sentLines = [] := by
      apply flatMap_eq_nil_of_forall
      intro t ht
      simp [Worker.sentLines, spawn_ready 0 _ t ht]
    simp only [startState, this]
    exact List.Perm.refl _
  completed := by
    have : (spawn 0 a.fileItems).flatMap Worker.doneIndex = [] := by
      apply flatMap_eq_nil_of_forall
      intro t ht
      simp [Worker.doneIndex, spawn_ready 0 _ t ht]
    simp only [startState, this]
    exact List.Perm.refl _
  statusLog := rfl
  processing := rfl
  processingLog := rfl
  logged := rfl
  returned := rfl
  origin := fun t ht hpc => absurd (spawn_ready 0 _ t ht) hpc

theorem stepTask_none {World File Image : Type} (S : Sys World File Image)
    (outputDir : GoString) (quality : Int) (n : Nat) (s : Run World) (i : Nat)
    (hget : s.tasks[i]? = none) : stepTask S outputDir quality n s i = s := by
  simp only [stepTask, hget]

theorem stepTask_ready {World File Image : Type} (S : Sys World File Image)
    (outputDir : GoString) (quality : Int) (n : Nat) (s : Run World) (i : Nat) (t : Worker)
    (hget : s.tasks[i]? = some t) (hpc : t.pc = Pc.ready) :
    stepTask S outputDir quality n s i
      = { s with
          world := (convertImage S t.path (batchOutputPath outputDir t.path) quality s.world).2.1
          calls := s.calls
            ++ (convertImage S t.path (batchOutputPath outputDir t.path) quality s.world).2.2
          tasks := s.tasks.set i
            { t with
              pc := Pc.converted
              err := (convertImage S t.path (batchOutputPath outputDir t.path) quality s.world).1
              calls :=
                (convertImage S t.path (batchOutputPath outputDir t.path) quality s.world).2.2 } } := by
  simp only [stepTask, hget, hpc]

theorem stepTask_converted {World File Image : Type} (S : Sys World File Image)
    (outputDir : GoString) (quality : Int) (n : Nat) (s : Run World) (i : Nat) (t : Worker)
    (hget : s.tasks[i]? = some t) (hpc : t.pc = Pc.converted) :
    stepTask S outputDir quality n s i
      = { s with
          results := s.results ++ [resultLine t.path t.err]
          tasks := s.tasks.set i { t with pc := Pc.sent } } := by
  simp only [stepTask, hget, hpc]

theorem stepTask_sent {World File Image : Type} (S : Sys World File Image)
    (outputDir : GoString) (quality : Int) (n : Nat) (s : Run World) (i : Nat) (t : Worker)
    (hget : s.tasks[i]? = some t) (hpc : t.pc = Pc.sent) :
    stepTask S outputDir quality n s i
      = { s with
          statusText := progressText (t.index + 1) n
          statusLog := s.statusLog ++ [progressText (t.index + 1) n]
          completed := s.completed ++ [t.index]
          tasks := s.tasks.set i { t with pc := Pc.done } } := by
  simp only [stepTask, hget, hpc]

theorem stepTask_done {World File Image : Type} (S : Sys World File Image)
    (outputDir : GoString) (quality : Int) (n : Nat) (s : Run World) (i : Nat) (t : Worker)
    (hget : s.tasks[i]? = some t) (hpc : t.pc = Pc.done) :
    stepTask S outputDir quality n s i = s := by
  simp only [stepTask, hget, hpc]

theorem stepTask_inv {World File Image : Type} (S : Sys World File Image)
    (outputDir : GoString) (quality : Int) (items : List GoString) (s : Run World) (i : Nat)
    (inv : RunInv S outputDir quality items s) :
    RunInv S outputDir quality items (stepTask S outputDir quality items.length s i) := by
  rcases hget : s.tasks[i]? with _ | t
  · rw [stepTask_none S outputDir quality _ s i hget]
    exact inv
  · obtain ⟨l1, l2, hl, -, hset⟩ := set_decomp _ _ _ hget
    have hp := inv.paths
    have hi := inv.indices
    have hr := inv.results
    have hc := inv.completed
    have ho := inv.origin
    rw [hl] at hp hi hr hc ho
    simp only [List.map_append, List.map_cons, List.flatMap_append, List.flatMap_cons] at hp hi hr hc
    rcases hpc : t.pc with _ | _ | _ | _
    · -- ready: call convertImage
      rw [stepTask_ready S outputDir quality _ s i t hget hpc]
      generalize hconv : convertImage S t.path (batchOutputPath outputDir t.path) quality s.world
        = conv
      obtain ⟨err, w1, calls⟩ := conv
      have hs : Worker.sentLines t = [] := by simp [Worker.sentLines, hpc]
      have hd : Worker.doneIndex t = [] := by simp [Worker.doneIndex, hpc]
      rw [hs] at hr
      rw [hd] at hc
      refine ⟨?_, ?_, ?_, ?_, inv.statusLog, inv.processing, inv.processingLog, inv.logged,
        inv.returned, ?_⟩
      · simp only [hset, List.map_append, List.map_cons]
        exact hp
      · simp only [hset, List.map_append, List.map_cons]
        exact hi
      · simp only [hset, List.flatMap_append, List.flatMap_cons]
        have : Worker.sentLines { t with pc := Pc.converted, err := err, calls := calls } = [] := by
          simp [Worker.sentLines]
        rw [this]
        exact hr
      · simp only [hset, List.flatMap_append, List.flatMap_cons]
        have : Worker.doneIndex { t with pc := Pc.converted, err := err, calls := calls } = [] := by
          simp [Worker.doneIndex]
        rw [this]
        exact hc
      · intro u hu hne
        simp only [hset, List.mem_append, List.mem_cons] at hu
        rcases hu with hu | hu | hu
        · exact ho u (by simp [hu]) hne
        · subst hu
          exact ⟨s.world, w1, hconv⟩
        · exact ho u (by simp [hu]) hne
    · -- converted: send the result line
      rw [stepTask_converted S outputDir quality _ s i t hget hpc]
      have hs : Worker.sentLines t = [] := by simp [Worker.sentLines, hpc]
      have hd : Worker.doneIndex t = [] := by simp [Worker.doneIndex, hpc]
      rw [hs] at hr
      rw [hd] at hc
      refine ⟨?_, ?_, ?_, ?_, inv.statusLog, inv.processing, inv.processingLog, inv.logged,
        inv.returned, ?_⟩
      · simp only [hset, List.map_append, List.map_cons]
        exact hp
      · simp only [hset, List.map_append, List.map_cons]
        exact hi
      · simp only [hset, List.flatMap_append, List.flatMap_cons]
        have : Worker.sentLines { t with pc := Pc.sent } = [resultLine t.path t.err] := by
          simp [Worker.sentLines]
        rw [this]
        simp only [List.nil_append] at hr
        have h1 : (s.results ++ [resultLine t.path t.err]).Perm
            (resultLine t.path t.err :: s.results) := List.perm_append_singleton _ _
        have h2 : (resultLine t.path t.err :: s.results).Perm
            (resultLine t.path t.err
              :: (List.flatMap l1 Worker.sentLines ++ List.flatMap l2 Worker.sentLines)) :=
          List.Perm.cons _ hr
        exact (h1.trans h2).trans List.perm_middle.symm
      · simp only [hset, List.flatMap_append, List.flatMap_cons]
        have : Worker.doneIndex { t with pc := Pc.sent } = [] := by
          simp [Worker.doneIndex]
        rw [this]
        exact hc
      · intro u hu hne
        simp only [hset, List.mem_append, List.mem_cons] at hu
        rcases hu with hu | hu | hu
        · exact ho u (by simp [hu]) hne
        · subst hu
          exact ho t (by simp) (by simp [hpc])
        · exact ho u (by simp [hu]) hne
    · -- sent: write the progress line and finish
      rw [stepTask_sent S outputDir quality _ s i t hget hpc]
      have hs : Worker.sentLines t = [resultLine t.path t.err] := by simp [Worker.sentLines, hpc]
      have hd : Worker.doneIndex t = [] := by simp [Worker.doneIndex, hpc]
      rw [hs] at hr
      rw [hd] at hc
      refine ⟨?_, ?_, ?_, ?_, ?_, inv.processing, inv.processingLog, inv.logged,
        inv.returned, ?_⟩
      · simp only [hset, List.map_append, List.map_cons]
        exact hp
      · simp only [hset, List.map_append, List.map_cons]
        exact hi
      · simp only [hset, List.flatMap_append, List.flatMap_cons]
        have : Worker.sentLines { t with pc := Pc.done } = [resultLine t.path t.err] := by
          simp [Worker.sentLines]
        rw [this]
        exact hr
      · simp only [hset, List.flatMap_append, List.flatMap_cons]
        have : Worker.doneIndex { t with pc := Pc.done } = [t.index] := by
          simp [Worker.doneIndex]
        rw [this]
        simp only [List.nil_append] at hc
        have h1 : (s.completed ++ [t.index]).Perm (t.index :: s.completed) :=
          List.perm_append_singleton _ _
        have h2 : (t.index :: s.completed).Perm
            (t.index :: (List.flatMap l1 Worker.doneIndex ++ List.flatMap l2 Worker.doneIndex)) :=
          List.Perm.cons _ hc
        exact (h1.trans h2).trans List.perm_middle.symm
      · simp only [inv.statusLog, List.map_append, List.map_cons, List.map_nil,
          List.cons_append]
      · intro u hu hne
        simp only [hset, List.mem_append, List.mem_cons] at hu
        rcases hu with hu | hu | hu
        · exact ho u (by simp [hu]) hne
        · subst hu
          exact ho t (by simp) (by simp [hpc])
        · exact ho u (by simp [hu]) hne
    · rw [stepTask_done S outputDir quality _ s i t hget hpc]
      exact inv

theorem foldl_stepTask_inv {World File Image : Type} (S : Sys World File Image)
    (outputDir : GoString) (quality : Int) (items : List GoString) (schedule : List Nat) :
    ∀ s : Run World, RunInv S outputDir quality items s →
      RunInv S outputDir quality items
        (schedule.foldl (stepTask S outputDir quality items.length) s) := by
  induction schedule with
  | nil => exact fun s h => h
  | cons i rest ih =>
    intro s h
    exact ih _ (stepTask_inv S outputDir quality items s i h)

theorem convertImages_accepted {World File Image : Type} (S : Sys World File Image)
    (a : App) (w : World) (schedule : List Nat) (q : Int)
    (hfiles : a.fileItems ≠ []) (hq : parseQuality S a.quality = some q)
    (hdir : (checkOutputDir S a.outputDir w).1 = true) :
    convertImages S a w schedule
      = if (schedule.foldl (stepTask S a.outputDir q a.fileItems.length)
              (startState a (checkOutputDir S a.outputDir w).2.1
                (checkOutputDir S a.outputDir w).2.2)).tasks.all
            (fun t => decide (t.pc = Pc.done))
        then collect a.fileItems.length
          (schedule.foldl (stepTask S a.outputDir q a.fileItems.length)
            (startState a (checkOutputDir S a.outputDir w).2.1
              (checkOutputDir S a.outputDir w).2.2))
        else schedule.foldl (stepTask S a.outputDir q a.fileItems.length)
          (startState a (checkOutputDir S a.outputDir w).2.1
            (checkOutputDir S a.outputDir w).2.2) := by
  have hlen : ¬ a.fileItems.length = 0 := fun h => hfiles (List.length_eq_zero.1 h)
  unfold convertImages
  rw [if_neg hlen]
  simp only [hq]
  generalize checkOutputDir S a.outputDir w = r at hdir
  obtain ⟨b, w1, calls⟩ := r
  simp only at hdir
  subst hdir
  rfl

/-- The goroutines of a validated batch, run under a schedule, keep the invariant. -/
theorem run_inv {World File Image : Type} (S : Sys World File Image)
    (a : App) (w : World) (calls : List Call) (schedule : List Nat) (q : Int) :
    RunInv S a.outputDir q a.fileItems
      (schedule.foldl (stepTask S a.outputDir q a.fileItems.length) (startState a w calls)) :=
  foldl_stepTask_inv S a.outputDir q a.fileItems schedule _
    (startState_inv S a.outputDir q a w calls)

theorem hasPrefix_resultLine (path : GoString) (err : Option GoString) :
    strings.HasPrefix (resultLine path err) "✓".toList = err.isNone := by
  cases err with
  | none => simp [resultLine, strings.HasPrefix]
  | some e => simp [resultLine, strings.HasPrefix]

theorem flatMap_sentLines_of_done (l : List Worker) (h : ∀ t ∈ l, t.pc = Pc.done) :
    l.flatMap Worker.sentLines = l.map (fun t => resultLine t.path t.err) := by
  induction l with
  | nil => rfl
  | cons x xs ih =>
    have hx : x.pc = Pc.done := h x (List.mem_cons_self _ _)
    rw [List.flatMap_cons, List.map_cons, ih (fun t ht => h t (List.mem_cons_of_mem _ ht))]
    simp [Worker.sentLines, hx]

theorem flatMap_doneIndex_of_done (l : List Worker) (h : ∀ t ∈ l, t.pc = Pc.done) :
    l.flatMap Worker.doneIndex = l.map Worker.index := by
  induction l with
  | nil => rfl
  | cons x xs ih =>
    have hx : x.pc = Pc.done := h x (List.mem_cons_self _ _)
    rw [List.flatMap_cons, List.map_cons, ih (fun t ht => h t (List.mem_cons_of_mem _ ht))]
    simp [Worker.doneIndex, hx]

/-- A validated batch that has returned went through `collect`, from a state in which every
goroutine had finished. -/
theorem returned_run {World File Image : Type} (S : Sys World File Image)
    (a : App) (w : World) (schedule : List Nat) (q : Int)
    (hfiles : a.fileItems ≠ []) (hq : parseQuality S a.quality = some q)
    (hdir : (checkOutputDir S a.outputDir w).1 = true)
    (hret : (convertImages S a w schedule).returned = true) :
    ∃ s : Run World, RunInv S a.outputDir q a.fileItems s
      ∧ (∀ t ∈ s.tasks, t.pc = Pc.done)
      ∧ s = schedule.foldl (stepTask S a.outputDir q a.fileItems.length)
          (startState a (checkOutputDir S a.outputDir w).2.1 (checkOutputDir S a.outputDir w).2.2)
      ∧ convertImages S a w schedule = collect a.fileItems.length s := by
  have hacc := convertImages_accepted S a w schedule q hfiles hq hdir
  have hinv := run_inv S a (checkOutputDir S a.outputDir w).2.1
    (checkOutputDir S a.outputDir w).2.2 schedule q
  generalize schedule.foldl (stepTask S a.outputDir q a.fileItems.length)
    (startState a (checkOutputDir S a.outputDir w).2.1 (checkOutputDir S a.outputDir w).2.2)
    = s at hacc hinv
  by_cases hall : s.tasks.all (fun t => decide (t.pc = Pc.done)) = true
  · rw [if_pos hall] at hacc
    refine ⟨s, hinv, ?_, rfl, hacc⟩
    intro t ht
    have := List.all_eq_true.1 hall t ht
    simpa using this
  · rw [if_neg hall] at hacc
    rw [hacc, hinv.returned] at hret
    cases hret

/-! ## The batch: every fair schedule lets it return -/

theorem rankAt_stepTask {World File Image : Type} (S : Sys World File Image)
    (outputDir : GoString) (quality : Int) (n : Nat) (s : Run World) (i j : Nat) :
    rankAt (stepTask S outputDir quality n s i) j
      = if i = j then min 3 (rankAt s j + 1) else rankAt s j := by
  rcases hget : s.tasks[i]? with _ | t
  · rw [stepTask_none S outputDir quality n s i hget]
    by_cases hij : i = j
    · subst hij
      simp [rankAt, hget]
    · rw [if_neg hij]
  · have hlt : i < s.tasks.length := by
      by_contra hge
      rw [List.getElem?_eq_none (by omega)] at hget
      cases hget
    have hset : ∀ t' : Worker, (s.tasks.set i t')[j]?
        = if i = j then some t' else s.tasks[j]? := by
      intro t'
      rw [List.getElem?_set]
      by_cases hij : i = j
      · subst hij
        simp [hlt]
      · simp [hij]
    rcases hpc : t.pc with _ | _ | _ | _
    · rw [stepTask_ready S outputDir quality n s i t hget hpc]
      by_cases hij : i = j
      · subst hij
        simp [rankAt, hset, hget, hpc, Pc.rank]
      · simp [rankAt, hset, hij]
    · rw [stepTask_converted S outputDir quality n s i t hget hpc]
      by_cases hij : i = j
      · subst hij
        simp [rankAt, hset, hget, hpc, Pc.rank]
      · simp [rankAt, hset, hij]
    · rw [stepTask_sent S outputDir quality n s i t hget hpc]
      by_cases hij : i = j
      · subst hij
        simp [rankAt, hset, hget, hpc, Pc.rank]
      · simp [rankAt, hset, hij]
    · rw [stepTask_done S outputDir quality n s i t hget hpc]
      by_cases hij : i = j
      · subst hij
        simp [rankAt, hget, hpc, Pc.rank]
      · rw [if_neg hij]

theorem rankAt_foldl {World File Image : Type} (S : Sys World File Image)
    (outputDir : GoString) (quality : Int) (n : Nat) (schedule : List Nat) (j : Nat) :
    ∀ s : Run World,
      rankAt (schedule.foldl (stepTask S outputDir quality n) s) j
        = min 3 (rankAt s j + schedule.count j) := by
  have hle : ∀ s : Run World, rankAt s j ≤ 3 := by
    intro s
    unfold rankAt
    split
    · rename_i t _
      cases t.pc <;> simp [Pc.rank]
    · exact le_refl 3
  induction schedule with
  | nil =>
    intro s
    have := hle s
    simp only [List.foldl_nil, List.count_nil, Nat.add_zero]
    omega
  | cons i rest ih =>
    intro s
    rw [List.foldl_cons, ih, rankAt_stepTask, List.count_cons]
    have := hle s
    by_cases hij : i = j
    · subst hij
      simp only [if_true, beq_self_eq_true]
      omega
    · have hne : (i == j) = false := by simpa using hij
      simp only [hij, if_false, hne]
      simp

/-- Under a schedule that gives every goroutine at least three steps, a validated batch
returns. -/
theorem fair_schedule_returns {World File Image : Type} (S : Sys World File Image)
    (a : App) (w : World) (schedule : List Nat) (q : Int)
    (hfiles : a.fileItems ≠ []) (hq : parseQuality S a.quality = some q)
    (hdir : (checkOutputDir S a.outputDir w).1 = true)
    (hfair : ∀ j < a.fileItems.length, 3 ≤ schedule.count j) :
    (convertImages S a w schedule).returned = true := by
  rw [convertImages_accepted S a w schedule q hfiles hq hdir]
  have hinv := run_inv S a (checkOutputDir S a.outputDir w).2.1
    (checkOutputDir S a.outputDir w).2.2 schedule q
  have hrank := fun j => rankAt_foldl S a.outputDir q a.fileItems.length schedule j
    (startState a (checkOutputDir S a.outputDir w).2.1 (checkOutputDir S a.outputDir w).2.2)
  generalize schedule.foldl (stepTask S a.outputDir q a.fileItems.length)
    (startState a (checkOutputDir S a.outputDir w).2.1 (checkOutputDir S a.outputDir w).2.2)
    = s at hinv hrank
  have hlen : s.tasks.length = a.fileItems.length := by
    have := congrArg List.length hinv.paths
    simpa using this
  have hall : s.tasks.all (fun t => decide (t.pc = Pc.done)) = true := by
    rw [List.all_eq_true]
    intro t ht
    obtain ⟨j, hj⟩ := List.mem_iff_getElem?.1 ht
    have hjlt : j < s.tasks.length := by
      by_contra hge
      rw [List.getElem?_eq_none (by omega)] at hj
      cases hj
    have h3 := hrank j
    have hc := hfair j (by omega)
    have hr : rankAt s j = 3 := by
      rw [h3]
      omega
    simp only [rankAt, hj] at hr
    have : t.pc = Pc.done := by
      cases hpc : t.pc <;> simp [hpc, Pc.rank] at hr
      rfl
    simp [this]
  rw [if_pos hall]
  rfl

theorem rankAt_startState {World : Type} (a : App) (w : World) (calls : List Call) (j : Nat)
    (hj : j < a.fileItems.length) : rankAt (startState a w calls) j = 0 := by
  have hlen : (spawn 0 a.fileItems).length = a.fileItems.length := by
    have := congrArg List.length (spawn_paths 0 a.fileItems)
    simpa using this
  have hlt : j < (spawn 0 a.fileItems).length := by omega
  have hmem : (spawn 0 a.fileItems)[j] ∈ spawn 0 a.fileItems := List.getElem_mem _
  have hpc := spawn_ready 0 a.fileItems _ hmem
  show (match (spawn 0 a.fileItems)[j]? with
    | some t => t.pc.rank
    | none => 3) = 0
  rw [List.getElem?_eq_getElem hlt]
  simp only [hpc, Pc.rank]

/-- A validated batch returns under exactly those schedules that give every goroutine its
three steps. -/
theorem returned_iff_fair {World File Image : Type} (S : Sys World File Image)
    (a : App) (w : World) (schedule : List Nat) (q : Int)
    (hfiles : a.fileItems ≠ []) (hq : parseQuality S a.quality = some q)
    (hdir : (checkOutputDir S a.outputDir w).1 = true) :
    (convertImages S a w schedule).returned = true
      ↔ ∀ j < a.fileItems.length, 3 ≤ schedule.count j := by
  constructor
  · intro hret j hj
    obtain ⟨s, inv, hdone, hs, -⟩ := returned_run S a w schedule q hfiles hq hdir hret
    have hrank := rankAt_foldl S a.outputDir q a.fileItems.length schedule j
      (startState a (checkOutputDir S a.outputDir w).2.1 (checkOutputDir S a.outputDir w).2.2)
    rw [← hs, rankAt_startState a _ _ j hj] at hrank
    have hlen : s.tasks.length = a.fileItems.length := by
      have := congrArg List.length inv.paths
      simpa using this
    have hlt : j < s.tasks.length := by omega
    have h3 : rankAt s j = 3 := by
      have hpc := hdone _ (List.getElem_mem hlt)
      show (match s.tasks[j]? with
        | some t => t.pc.rank
        | none => 3) = 3
      rw [List.getElem?_eq_getElem hlt]
      simp only [hpc, Pc.rank]
    omega
  · exact fair_schedule_returns S a w schedule q hfiles hq hdir

/-- C5. Under every schedule that gives each goroutine its three steps (the schedules under
which `wg.Wait()` returns), a validated batch over `n` paths returns, having run one goroutine
per path, each of which called `convertImage` on its own path and put exactly one line on the
channel: the results are, up to order, the lines of the `n` conversions.  The count shown in the final
status is the number of conversions that returned no error, and `n` is that count plus the
number of conversions that returned an error.  A failure line never passes the `✓` prefix
test, a success line always does. -/
theorem C5_batch_counts {World File Image : Type} (S : Sys World File Image)
    (a : App) (w : World) (schedule : List Nat) (q : Int)
    (hfiles : a.fileItems ≠ []) (hq : parseQuality S a.quality = some q)
    (hdir : (checkOutputDir S a.outputDir w).1 = true)
    (hfair : ∀ j < a.fileItems.length, 3 ≤ schedule.count j) :
    (convertImages S a w schedule).returned = true
      ∧ ((convertImages S a w schedule).tasks.map Worker.path = a.fileItems
        ∧ (∀ t ∈ (convertImages S a w schedule).tasks, t.pc = Pc.done
            ∧ ∃ w0 w1, convertImage S t.path (batchOutputPath a.outputDir t.path) q w0
                = (t.err, w1, t.calls))
        ∧ (convertImages S a w schedule).results.Perm
            ((convertImages S a w schedule).tasks.map (fun t => resultLine t.path t.err))
        ∧ (convertImages S a w schedule).results.length = a.fileItems.length
        ∧ (convertImages S a w schedule).statusText
            = completeText
                ((convertImages S a w schedule).tasks.countP (fun t => t.err.isNone))
                a.fileItems.length
        ∧ a.fileItems.length
            = (convertImages S a w schedule).tasks.countP (fun t => t.err.isNone)
              + (convertImages S a w schedule).tasks.countP (fun t => t.err.isSome)
        ∧ (∀ path e, strings.HasPrefix (resultLine path (some e)) "✓".toList = false)
        ∧ (∀ path, strings.HasPrefix (resultLine path none) "✓".toList = true)) := by
  have hret := fair_schedule_returns S a w schedule q hfiles hq hdir hfair
  refine ⟨hret, ?_⟩
  obtain ⟨s, inv, hdone, -, hrun⟩ := returned_run S a w schedule q hfiles hq hdir hret
  rw [hrun]
  have hres : s.results.Perm (s.tasks.map (fun t => resultLine t.path t.err)) := by
    have := inv.results
    rwa [flatMap_sentLines_of_done _ hdone] at this
  have hlen : s.tasks.length = a.fileItems.length := by
    have := congrArg List.length inv.paths
    simpa using this
  have hcount : s.results.countP (fun result => strings.HasPrefix result "✓".toList)
      = s.tasks.countP (fun t => t.err.isNone) := by
    rw [hres.countP_eq, List.countP_map]
    apply List.countP_congr
    intro t _
    simp only [Function.comp_apply, hasPrefix_resultLine]
  refine ⟨inv.paths, fun t ht => ⟨hdone t ht, inv.origin t ht (by simp [hdone t ht])⟩, hres,
    ?_, ?_, ?_, fun path e => ?_, fun path => ?_⟩
  · show s.results.length = _
    rw [hres.length_eq, List.length_map, hlen]
  · show completeText (s.results.countP _) _ = _
    rw [hcount]
    rfl
  · show _ = s.tasks.countP _ + s.tasks.countP _
    rw [← hlen, List.length_eq_countP_add_countP (fun t : Worker => t.err.isNone)]
    congr 1
    apply List.countP_congr
    intro t _
    cases t.err <;> simp
  · rw [hasPrefix_resultLine]
    rfl
  · rw [hasPrefix_resultLine]
    rfl

theorem C5_batch_counts_witness :
    Sample.app.fileItems ≠ []
      ∧ parseQuality Sample.sys Sample.app.quality = some 90
      ∧ (checkOutputDir Sample.sys Sample.app.outputDir []).1 = true
      ∧ (∀ j < Sample.app.fileItems.length, 3 ≤ Sample.schedule.count j)
      ∧ (convertImages Sample.sys Sample.app [] Sample.schedule).returned = true
      ∧ (convertImages Sample.sys Sample.app [] Sample.schedule).statusText
          = completeText
              ((convertImages Sample.sys Sample.app [] Sample.schedule).tasks.countP
                (fun t => t.err.isNone))
              Sample.app.fileItems.length :=
  ⟨by decide, by decide, by decide, by decide,
    (C5_batch_counts Sample.sys Sample.app [] Sample.schedule 90 (by decide) (by decide)
      (by decide) (by decide)).1,
    (C5_batch_counts Sample.sys Sample.app [] Sample.schedule 90 (by decide) (by decide)
      (by decide) (by decide)).2.2.2.2.2.1⟩

/-! ## C6: the quality bounds -/

/-- A validated batch is the run of its goroutines, followed by `collect` if they all
finished. -/
theorem accepted_shape {World File Image : Type} (S : Sys World File Image)
    (a : App) (w : World) (schedule : List Nat) (q : Int)
    (hfiles : a.fileItems ≠ []) (hq : parseQuality S a.quality = some q)
    (hdir : (checkOutputDir S a.outputDir w).1 = true) :
    ∃ s : Run World, RunInv S a.outputDir q a.fileItems s
      ∧ (convertImages S a w schedule = collect a.fileItems.length s
          ∨ convertImages S a w schedule = s) := by
  have hacc := convertImages_accepted S a w schedule q hfiles hq hdir
  have hinv := run_inv S a (checkOutputDir S a.outputDir w).2.1
    (checkOutputDir S a.outputDir w).2.2 schedule q
  generalize schedule.foldl (stepTask S a.outputDir q a.fileItems.length)
    (startState a (checkOutputDir S a.outputDir w).2.1 (checkOutputDir S a.outputDir w).2.2)
    = s at hacc hinv
  refine ⟨s, hinv, ?_⟩
  by_cases hall : s.tasks.all (fun t => decide (t.pc = Pc.done)) = true
  · rw [if_pos hall] at hacc
    exact Or.inl hacc
  · rw [if_neg hall] at hacc
    exact Or.inr hacc

theorem parseQuality_scanned {World File Image : Type} (S : Sys World File Image)
    (text : GoString) (q : Int) (htext : text ≠ []) (hscan : S.sscanfInt text = some q) :
    parseQuality S text = if q < 1 ∨ q > 100 then none else some q := by
  simp only [parseQuality, ne_eq, htext, not_false_eq_true, if_true, hscan]

/-- C6. With a non-empty work list, a valid output directory, and an integer `q` scanned from
a non-empty quality text, the batch starts its conversions if and only if `1 ≤ q ≤ 100`.  In
range (so for `q = 1` and `q = 100`) it sets the processing flag, writes `Converting files...`
and starts one goroutine per path, every conversion being called with quality `q`.  Out of
range (so for `q = 0` and `q = 101`) the only thing it does is to set the status
`Error: Quality must be between 1 and 100`: no goroutine, no external call (nothing opened,
nothing created), the world untouched, the processing flag not written. -/
theorem C6_quality_bounds {World File Image : Type} (S : Sys World File Image)
    (a : App) (w : World) (schedule : List Nat) (q : Int)
    (hfiles : a.fileItems ≠ []) (htext : a.quality ≠ []) (hscan : S.sscanfInt a.quality = some q)
    (hdir : (checkOutputDir S a.outputDir w).1 = true) :
    ((1 ≤ q ∧ q ≤ 100) ↔
        (convertImages S a w schedule).tasks.map Worker.path = a.fileItems)
      ∧ ((1 ≤ q ∧ q ≤ 100) →
          (convertImages S a w schedule).processingLog.head? = some true
            ∧ (convertImages S a w schedule).statusLog.head? = some "Converting files...".toList
            ∧ ∀ t ∈ (convertImages S a w schedule).tasks, t.pc ≠ Pc.ready →
                ∃ w0 w1, convertImage S t.path (batchOutputPath a.outputDir t.path) q w0
                  = (t.err, w1, t.calls))
      ∧ (¬ (1 ≤ q ∧ q ≤ 100) →
          convertImages S a w schedule
              = rejected a w [] "Error: Quality must be between 1 and 100".toList
            ∧ (convertImages S a w schedule).statusLog
                = ["Error: Quality must be between 1 and 100".toList]
            ∧ (convertImages S a w schedule).tasks = []
            ∧ (convertImages S a w schedule).calls = []
            ∧ (convertImages S a w schedule).processingLog = []
            ∧ (convertImages S a w schedule).processing = a.processing)
      ∧ (q = 1 ∨ q = 100 →
          (convertImages S a w schedule).tasks.map Worker.path = a.fileItems)
      ∧ (q = 0 ∨ q = 101 →
          convertImages S a w schedule
            = rejected a w [] "Error: Quality must be between 1 and 100".toList) := by
  have hpq := parseQuality_scanned S a.quality q htext hscan
  have hin : (1 ≤ q ∧ q ≤ 100) →
      (convertImages S a w schedule).tasks.map Worker.path = a.fileItems
        ∧ (convertImages S a w schedule).processingLog.head? = some true
        ∧ (convertImages S a w schedule).statusLog.head? = some "Converting files...".toList
        ∧ ∀ t ∈ (convertImages S a w schedule).tasks, t.pc ≠ Pc.ready →
            ∃ w0 w1, convertImage S t.path (batchOutputPath a.outputDir t.path) q w0
              = (t.err, w1, t.calls) := by
    intro hr
    have hq : parseQuality S a.quality = some q := by
      rw [hpq, if_neg]
      omega
    obtain ⟨s, inv, hs | hs⟩ := accepted_shape S a w schedule q hfiles hq hdir
    · rw [hs]
      refine ⟨inv.paths, ?_, ?_, inv.origin⟩
      · show (s.processingLog ++ [false]).head? = _
        rw [inv.processingLog]
        rfl
      · show (s.statusLog ++ _).head? = _
        rw [inv.statusLog]
        rfl
    · rw [hs]
      refine ⟨inv.paths, ?_, ?_, inv.origin⟩
      · rw [inv.processingLog]
        rfl
      · rw [inv.statusLog]
        rfl
  have hout : ¬ (1 ≤ q ∧ q ≤ 100) →
      convertImages S a w schedule
        = rejected a w [] "Error: Quality must be between 1 and 100".toList := by
    intro hr
    have hq : parseQuality S a.quality = none := by
      rw [hpq, if_pos]
      omega
    have hlen : ¬ a.fileItems.length = 0 := fun h => hfiles (List.length_eq_zero.1 h)
    unfold convertImages
    rw [if_neg hlen]
    simp only [hq]
  refine ⟨⟨fun hr => (hin hr).1, ?_⟩, fun hr => (hin hr).2, ?_, fun h => (hin (by omega)).1,
    fun h => hout (by omega)⟩
  · intro hp
    by_contra hr
    rw [hout hr] at hp
    exact hfiles hp.symm
  · intro hr
    rw [hout hr]
    exact ⟨rfl, rfl, rfl, rfl, rfl, rfl⟩

theorem C6_quality_bounds_witness :
    Sample.app.fileItems ≠ []
      ∧ ({ Sample.app with quality := "101".toList } : App).quality ≠ []
      ∧ Sample.sys.sscanfInt "101".toList = some 101
      ∧ (checkOutputDir Sample.sys Sample.app.outputDir []).1 = true
      ∧ convertImages Sample.sys { Sample.app with quality := "101".toList } [] Sample.schedule
          = rejected { Sample.app with quality := "101".toList } [] []
              "Error: Quality must be between 1 and 100".toList :=
  ⟨by decide, by decide, by decide, by decide,
    (C6_quality_bounds Sample.sys { Sample.app with quality := "101".toList } []
      Sample.schedule 101 (by decide) (by decide) (by decide) (by decide)).2.2.2.2 (Or.inr rfl)⟩

/-! ## C8: one item that fails in decoding -/

/-- A conversion whose calls stop after the decode step returned the decode failure. -/
theorem decode_failure_of_phases {World File Image : Type} (S : Sys World File Image)
    (inputPath outputPath : GoString) (quality : Int) (w0 w1 : World)
    (err : Option GoString) (calls : List Call)
    (hconv : convertImage S inputPath outputPath quality w0 = (err, w1, calls))
    (hph : Spec.phasesOf calls = [Spec.Phase.opening, Spec.Phase.decoding]) :
    ∃ e, err = some ("decoding image".toList ++ (": ".toList ++ e)) := by
  rcases convertImage_cases S inputPath outputPath quality w0 with
    ⟨_, _, _, hc⟩ | ⟨_, _, e, _, _, _, hc⟩ | ⟨_, _, _, _, _, _, _, _, _, hc⟩
      | ⟨_, _, _, _, _, _, _, _, _, _, _, _, hc⟩ | ⟨_, _, _, _, _, _, _, _, _, _, _, hc⟩
  · rw [hc] at hconv
    cases hconv
    simp [Spec.phasesOf] at hph
  · rw [hc] at hconv
    cases hconv
    exact ⟨e, rfl⟩
  · rw [hc] at hconv
    cases hconv
    simp [Spec.phasesOf] at hph
  · rw [hc] at hconv
    cases hconv
    simp [Spec.phasesOf] at hph
  · rw [hc] at hconv
    cases hconv
    simp [Spec.phasesOf] at hph

theorem collect_count {World File Image : Type} (S : Sys World File Image)
    (outputDir : GoString) (q : Int) (items : List GoString) (s : Run World)
    (inv : RunInv S outputDir q items s) (hdone : ∀ t ∈ s.tasks, t.pc = Pc.done) :
    s.results.Perm (s.tasks.map (fun t => resultLine t.path t.err))
      ∧ s.results.countP (fun result => strings.HasPrefix result "✓".toList)
          = s.tasks.countP (fun t => t.err.isNone) := by
  have hres : s.results.Perm (s.tasks.map (fun t => resultLine t.path t.err)) := by
    have := inv.results
    rwa [flatMap_sentLines_of_done _ hdone] at this
  refine ⟨hres, ?_⟩
  rw [hres.countP_eq, List.countP_map]
  apply List.countP_congr
  intro t _
  simp only [Function.comp_apply, hasPrefix_resultLine]

/-- A batch of one path whose conversion returns no error puts the success line of that path,
and nothing else, on the channel. -/
theorem alone_success {World File Image : Type} (S : Sys World File Image)
    (a : App) (w : World) (schedule : List Nat) (q : Int) (p : GoString)
    (hone : a.fileItems = [p]) (hq : parseQuality S a.quality = some q)
    (hdir : (checkOutputDir S a.outputDir w).1 = true)
    (hret : (convertImages S a w schedule).returned = true)
    (hok : ∀ t ∈ (convertImages S a w schedule).tasks, t.err = none) :
    (convertImages S a w schedule).results = [resultLine p none] := by
  have hfiles : a.fileItems ≠ [] := by simp [hone]
  obtain ⟨s, inv, hdone, -, hrun⟩ := returned_run S a w schedule q hfiles hq hdir hret
  rw [hrun] at hok ⊢
  have hres := (collect_count S a.outputDir q a.fileItems s inv hdone).1
  have hp := inv.paths
  rw [hone] at hp
  match hs : s.tasks, hp with
  | [t], hp =>
    have htp : t.path = p := by simpa using hp
    have hte : t.err = none := hok t (by show t ∈ s.tasks; rw [hs]; simp)
    rw [hs] at hres
    simp only [List.map_cons, List.map_nil, htp, hte] at hres
    exact List.perm_singleton.1 hres

/-- C9. The progress line written when a task completes should show how many tasks have
completed, out of the total; the code prints the position of the task's item in the work list
instead, so the line is wrong whenever tasks complete out of work-list order.  With two
files, when the goroutine of the second file runs to its end before the first, the first task
to complete writes `Converting... 2/2` and the second writes `Converting... 1/2`. -/
theorem C9_progress_line_out_of_order :
    Sample.pair.fileItems ≠ []
      ∧ parseQuality Sample.sys Sample.pair.quality = some 90
      ∧ (checkOutputDir Sample.sys Sample.pair.outputDir []).1 = true
      ∧ (∀ j < Sample.pair.fileItems.length, 3 ≤ Sample.reversed.count j)
      ∧ (convertImages Sample.sys Sample.pair [] Sample.reversed).returned = true
      ∧ (convertImages Sample.sys Sample.pair [] Sample.reversed).completed = [1, 0]
      ∧ (convertImages Sample.sys Sample.pair [] Sample.reversed).statusLog
          = ["Converting files...".toList, "Converting... 2/2".toList,
              "Converting... 1/2".toList, "Complete! 2/2 files converted successfully".toList]
      ∧ ¬ (∀ k, 1 ≤ k → k ≤ Sample.pair.fileItems.length →
            (convertImages Sample.sys Sample.pair [] Sample.reversed).statusLog[k]?
              = some (progressText k Sample.pair.fileItems.length)) := by
  refine ⟨by decide, by decide, by decide, by decide, by decide, by decide, by decide, ?_⟩
  intro h
  have h1 := h 1 (by decide) (by decide)
  revert h1
  decide

theorem completed_perm_range {World File Image : Type} (S : Sys World File Image)
    (outputDir : GoString) (q : Int) (items : List GoString) (s : Run World)
    (inv : RunInv S outputDir q items s) (hdone : ∀ t ∈ s.tasks, t.pc = Pc.done) :
    s.completed.Perm (List.range items.length) := by
  have := inv.completed
  rwa [flatMap_doneIndex_of_done _ hdone, inv.indices, ← List.range_eq_range'] at this

/-- What the code writes as progress lines, in general.  A validated batch, run under a schedule
that gives each goroutine its three steps, returns; every goroutine finished exactly once, and
the status was written as follows: `Converting files...`, then one line per finished goroutine
in order of finishing, then the completion line.  The line written by the `k`-th goroutine to
finish is `Converting... (i+1)/n`, where `i` is the position of its item in the work list, so
it reads `k/n` only when the goroutines finish in work-list order. -/
theorem progress_line_shows_item_position {World File Image : Type} (S : Sys World File Image)
    (a : App) (w : World) (schedule : List Nat) (q : Int)
    (hfiles : a.fileItems ≠ []) (hq : parseQuality S a.quality = some q)
    (hdir : (checkOutputDir S a.outputDir w).1 = true)
    (hfair : ∀ j < a.fileItems.length, 3 ≤ schedule.count j) :
    (convertImages S a w schedule).returned = true
      ∧ ((convertImages S a w schedule).completed.Perm (List.range a.fileItems.length)
        ∧ (convertImages S a w schedule).statusLog
            = "Converting files...".toList
                :: ((convertImages S a w schedule).completed.map
                      (fun i => progressText (i + 1) a.fileItems.length)
                    ++ [(convertImages S a w schedule).statusText])
        ∧ (∀ k i, (convertImages S a w schedule).completed[k]? = some i →
            (convertImages S a w schedule).statusLog[k + 1]?
              = some (progressText (i + 1) a.fileItems.length))
        ∧ ((convertImages S a w schedule).completed = List.range a.fileItems.length →
            ∀ k, k < a.fileItems.length →
              (convertImages S a w schedule).statusLog[k + 1]?
                = some (progressText (k + 1) a.fileItems.length))) := by
  have hret := fair_schedule_returns S a w schedule q hfiles hq hdir hfair
  refine ⟨hret, ?_⟩
  obtain ⟨s, inv, hdone, -, hrun⟩ := returned_run S a w schedule q hfiles hq hdir hret
  rw [hrun]
  have hcompleted : (collect a.fileItems.length s).completed = s.completed := rfl
  have hlog : (collect a.fileItems.length s).statusLog
      = "Converting files...".toList
          :: (s.completed.map (fun i => progressText (i + 1) a.fileItems.length)
              ++ [(collect a.fileItems.length s).statusText]) := by
    show s.statusLog ++ _ = _
    rw [inv.statusLog]
    rfl
  have hkth : ∀ k i, s.completed[k]? = some i →
      (collect a.fileItems.length s).statusLog[k + 1]?
        = some (progressText (i + 1) a.fileItems.length) := by
    intro k i hk
    have hklt : k < s.completed.length := by
      by_contra hge
      rw [List.getElem?_eq_none (by omega)] at hk
      cases hk
    rw [hlog, List.getElem?_cons_succ,
      List.getElem?_append_left (by rw [List.length_map]; exact hklt), List.getElem?_map, hk]
    rfl
  rw [hcompleted]
  refine ⟨completed_perm_range S a.outputDir q a.fileItems s inv hdone, hlog, hkth, ?_⟩
  intro horder k hk
  apply hkth
  rw [horder, List.getElem?_range hk]

theorem progress_line_shows_item_position_sample :
    Sample.pair.fileItems ≠ []
      ∧ parseQuality Sample.sys Sample.pair.quality = some 90
      ∧ (checkOutputDir Sample.sys Sample.pair.outputDir []).1 = true
      ∧ (∀ j < Sample.pair.fileItems.length, 3 ≤ Sample.reversed.count j)
      ∧ (convertImages Sample.sys Sample.pair [] Sample.reversed).completed[0]? = some 1
      ∧ (convertImages Sample.sys Sample.pair [] Sample.reversed).statusLog[0 + 1]?
          = some (progressText (1 + 1) Sample.pair.fileItems.length) :=
  ⟨by decide, by decide, by decide, by decide, by decide,
    (progress_line_shows_item_position Sample.sys Sample.pair [] Sample.reversed 90 (by decide)
      (by decide) (by decide) (by decide)).2.2.2.1 0 1 (by decide)⟩

/-! ## C10: distinct inputs with one output -/

theorem base_dir_name (dir name : GoString) (hne : name ≠ []) (hsep : '/' ∉ name) :
    filepath.Base (dir ++ '/' :: name) = name := by
  have hall : ∀ c ∈ name.reverse, (!os.IsPathSeparator c) = true := by
    intro c hc
    simp only [os.IsPathSeparator, Bool.not_eq_true', beq_eq_false_iff_ne, ne_eq]
    intro e
    exact hsep (e ▸ List.mem_reverse.1 hc)
  have hrev : (dir ++ '/' :: name).reverse = name.reverse ++ '/' :: dir.reverse := by simp
  have hstrip : (dir ++ '/' :: name).reverse.dropWhile os.IsPathSeparator
      = (dir ++ '/' :: name).reverse := by
    rw [hrev]
    cases hr : name.reverse with
    | nil => exact absurd (List.reverse_eq_nil_iff.1 hr) hne
    | cons c t =>
      have hc : os.IsPathSeparator c = false := by
        have := hall c (by rw [hr]; exact List.mem_cons_self _ _)
        simpa using this
      simp [List.dropWhile, hc]
  have htake : (name.reverse ++ '/' :: dir.reverse).takeWhile (fun c => !os.IsPathSeparator c)
      = name.reverse := by
    rw [List.takeWhile_append_of_pos hall]
    simp [List.takeWhile, os.IsPathSeparator]
  unfold filepath.Base
  rw [if_neg (by simp)]
  simp only [hstrip, List.reverse_reverse]
  rw [hrev, htake, List.reverse_reverse, if_neg hne]

/-- C10. The output path is not an injective function of the input path.  Beside the input
(empty output directory), `/a/x.png` and `/a/x.jpg` both resolve to `/a/x.webp`.  Inside an
output directory, two inputs with the same output file name (same base name up to the
extension) resolve to the same path, in particular a file of the same name in two different
directories.  The work list refuses only a path it already holds, so both files of such a
pair can be in one batch, whose two goroutines then both create the same output file. -/
theorem C10_output_path_not_injective :
    (batchOutputPath [] "/a/x.png".toList = batchOutputPath [] "/a/x.jpg".toList
        ∧ "/a/x.png".toList ≠ "/a/x.jpg".toList)
      ∧ ¬ Function.Injective (batchOutputPath [])
      ∧ (∀ d p q : GoString, d ≠ [] → Spec.outputFileName p = Spec.outputFileName q →
          batchOutputPath d p = batchOutputPath d q)
      ∧ (∀ d dir1 dir2 name : GoString, d ≠ [] → name ≠ [] → '/' ∉ name →
          batchOutputPath d (dir1 ++ '/' :: name) = batchOutputPath d (dir2 ++ '/' :: name))
      ∧ (∀ d : GoString, d ≠ [] → ¬ Function.Injective (batchOutputPath d))
      ∧ (Sample.clash.fileItems = ["/a/x.png".toList, "/a/x.jpg".toList]
          ∧ (convertImages Sample.sys Sample.clash [] Sample.reversed).returned = true
          ∧ (convertImages Sample.sys Sample.clash [] Sample.reversed).calls
              = [Call.osOpen "/a/x.jpg".toList, Call.decode "/a/x.jpg".toList,
                  Call.osCreate "/a/x.webp".toList, Call.webpEncode 80, Call.closeOutput,
                  Call.closeInput,
                  Call.osOpen "/a/x.png".toList, Call.decode "/a/x.png".toList,
                  Call.osCreate "/a/x.webp".toList, Call.webpEncode 80, Call.closeOutput,
                  Call.closeInput]
          ∧ (convertImages Sample.sys Sample.clash [] Sample.reversed).world
              = ["/a/x.webp".toList, "/a/x.webp".toList]) := by
  have hdir : ∀ d dir1 dir2 name : GoString, d ≠ [] → name ≠ [] → '/' ∉ name →
      batchOutputPath d (dir1 ++ '/' :: name) = batchOutputPath d (dir2 ++ '/' :: name) := by
    intro d dir1 dir2 name hd hne hsep
    simp only [batchOutputPath, ne_eq, hd, not_false_eq_true, if_true,
      base_dir_name _ name hne hsep]
  refine ⟨⟨by decide, by decide⟩, ?_, ?_, hdir, ?_, by decide, by decide, by decide,
    by decide⟩
  · intro hinj
    have h : batchOutputPath [] "/a/x.png".toList = batchOutputPath [] "/a/x.jpg".toList := by
      decide
    exact absurd (hinj h) (by decide)
  · intro d p q hd hname
    rw [batchOutputPath_in_dir d p hd, batchOutputPath_in_dir d q hd, hname]
  · intro d hd hinj
    have h := hdir d "/a".toList "/b".toList "x.png".toList hd (by decide) (by decide)
    exact absurd (hinj h) (by decide)

theorem C10_output_path_not_injective_witness :
    "/out".toList ≠ []
      ∧ Spec.outputFileName "/a/x.png".toList = Spec.outputFileName "/b/x.bmp".toList
      ∧ batchOutputPath "/out".toList "/a/x.png".toList
          = batchOutputPath "/out".toList "/b/x.bmp".toList :=
  ⟨by decide, by decide,
    C10_output_path_not_injective.2.2.1 "/out".toList "/a/x.png".toList "/b/x.bmp".toList
      (by decide) (by decide)⟩

/-! ## C11: resolving beside the input is idempotent -/

/-- What `filepath.Ext` returns is empty or a suffix of the path. -/
theorem extScan_suffix (r acc : List Char) :
    filepath.extScan r acc = [] ∨ ∃ x, x ++ filepath.extScan r acc = r.reverse ++ acc := by
  induction r generalizing acc with
  | nil => exact Or.inl rfl
  | cons c cs ih =>
    unfold filepath.extScan
    by_cases hs : os.IsPathSeparator c = true
    · rw [if_pos hs]
      exact Or.inl rfl
    · rw [if_neg hs]
      by_cases hd : c = '.'
      · rw [if_pos hd]
        exact Or.inr ⟨cs.reverse, by simp⟩
      · rw [if_neg hd]
        rcases ih (c :: acc) with h | ⟨x, h⟩
        · exact Or.inl h
        · exact Or.inr ⟨x, by rw [h]; simp⟩

theorem ext_append_webp (x : GoString) : filepath.Ext (x ++ webpExt) = webpExt := by
  unfold filepath.Ext
  have hrev : (x ++ webpExt).reverse = "pbew".toList ++ '.' :: x.reverse := by
    rw [List.reverse_append]
    rfl
  rw [hrev, extScan_dot _ _ _ (by decide) (by decide)]
  rfl

theorem hasSuffix_append (a b : GoString) : strings.HasSuffix (a ++ b) b = true := by
  simp [strings.HasSuffix]

/-- A path whose extension is `.webp` ends with it. -/
theorem eq_append_of_ext_webp (p : GoString) (h : filepath.Ext p = webpExt) :
    ∃ x, p = x ++ webpExt := by
  rcases extScan_suffix p.reverse [] with h0 | ⟨x, hx⟩
  · unfold filepath.Ext at h
    rw [h0] at h
    exact absurd h (by decide)
  · refine ⟨x, ?_⟩
    unfold filepath.Ext at h
    rw [h] at hx
    simpa using hx.symm

theorem resolve_append_webp (x : GoString) :
    batchOutputPath [] (x ++ webpExt) = x ++ webpExt := by
  simp only [batchOutputPath, ne_eq, not_true_eq_false, if_false]
  rw [ext_append_webp, trimSuffix_append]

/-- A conversion whose open and decode steps succeed calls `os.Create` on its output path,
right after opening and decoding its input. -/
theorem convertImage_reaches_create {World File Image : Type} (S : Sys World File Image)
    (inputPath outputPath : GoString) (quality : Int) (w : World)
    (file : File) (w1 : World) (img : Image) (w2 : World)
    (hopen : S.osOpen inputPath w = (Except.ok file, w1))
    (hdec : DecodeImage S file inputPath w1 = (Except.ok img, w2)) :
    (convertImage S inputPath outputPath quality w).2.2.take 3
      = [Call.osOpen inputPath, Call.decode inputPath, Call.osCreate outputPath] := by
  rcases convertImage_cases S inputPath outputPath quality w with
    ⟨_, _, h1, _⟩ | ⟨_, _, _, _, h1, h2, _⟩ | ⟨_, _, _, _, _, _, _, _, _, hc⟩
      | ⟨_, _, _, _, _, _, _, _, _, _, _, _, hc⟩ | ⟨_, _, _, _, _, _, _, _, _, _, _, hc⟩
  · rw [hopen] at h1
    cases h1
  · rw [hopen] at h1
    cases h1
    rw [hdec] at h2
    cases h2
  · rw [hc]
    rfl
  · rw [hc]
    rfl
  · rw [hc]
    rfl

/-- A conversion that returns no error has created its output file. -/
theorem convertImage_success_creates {World File Image : Type} (S : Sys World File Image)
    (inputPath outputPath : GoString) (quality : Int) (w0 w1 : World) (calls : List Call)
    (hconv : convertImage S inputPath outputPath quality w0 = (none, w1, calls)) :
    Call.osOpen inputPath ∈ calls ∧ Call.osCreate outputPath ∈ calls := by
  rcases convertImage_cases S inputPath outputPath quality w0 with
    ⟨_, _, _, hc⟩ | ⟨_, _, _, _, _, _, hc⟩ | ⟨_, _, _, _, _, _, _, _, _, hc⟩
      | ⟨_, _, _, _, _, _, _, _, _, _, _, _, hc⟩ | ⟨_, _, _, _, _, _, _, _, _, _, _, hc⟩
  · rw [hc] at hconv
    cases hconv
  · rw [hc] at hconv
    cases hconv
  · rw [hc] at hconv
    cases hconv
  · rw [hc] at hconv
    cases hconv
  · rw [hc] at hconv
    cases hconv
    simp

/-- C11. With an empty output directory the resolver is idempotent: the resolved path of every
`p` ends in `.webp`, and resolving it again returns it unchanged (for the batch and for the
single-image converter).  A path resolves to itself exactly when its extension is `.webp`.
For such an input the conversion is called with the input path as its output path: once
opening and decoding have succeeded it calls `os.Create` on the very file it has opened, and in
a batch every goroutine of such an item that returned no error has created its own input
file. -/
theorem C11_resolver_idempotent {World File Image : Type} (S : Sys World File Image)
    (p : GoString) (q : Int) (w : World) (a : App) (schedule : List Nat) :
    strings.HasSuffix (batchOutputPath [] p) webpExt = true
      ∧ batchOutputPath [] (batchOutputPath [] p) = batchOutputPath [] p
      ∧ singleOutputPath (singleOutputPath p []) [] = singleOutputPath p []
      ∧ (batchOutputPath [] p = p ↔ filepath.Ext p = webpExt)
      ∧ (filepath.Ext p = webpExt →
          convertImage S p (batchOutputPath [] p) q w = convertImage S p p q w
            ∧ (∀ file w1 img w2, S.osOpen p w = (Except.ok file, w1) →
                DecodeImage S file p w1 = (Except.ok img, w2) →
                (convertImage S p (batchOutputPath [] p) q w).2.2.take 3
                  = [Call.osOpen p, Call.decode p, Call.osCreate p])
            ∧ ((convertImage S p (batchOutputPath [] p) q w).1 = none →
                Call.osCreate p ∈ (convertImage S p (batchOutputPath [] p) q w).2.2))
      ∧ (a.fileItems ≠ [] → parseQuality S a.quality = some q → a.outputDir = [] →
          ∀ t ∈ (convertImages S a w schedule).tasks,
            filepath.Ext t.path = webpExt → t.pc ≠ Pc.ready →
              (∃ w0 w1, convertImage S t.path t.path q w0 = (t.err, w1, t.calls))
                ∧ (t.err = none →
                    Call.osOpen t.path ∈ t.calls ∧ Call.osCreate t.path ∈ t.calls)) := by
  have hform : batchOutputPath [] p
      = strings.TrimSuffix p (filepath.Ext p) ++ webpExt := by
    simp only [batchOutputPath, ne_eq, not_true_eq_false, if_false]
  have hidem : batchOutputPath [] (batchOutputPath [] p) = batchOutputPath [] p := by
    rw [hform, resolve_append_webp]
  have hself : ∀ r : GoString, filepath.Ext r = webpExt → batchOutputPath [] r = r := by
    intro r hr
    obtain ⟨x, hx⟩ := eq_append_of_ext_webp r hr
    rw [hx, resolve_append_webp]
  have hsingle : ∀ r : GoString, singleOutputPath r [] = batchOutputPath [] r := by
    intro r
    simp [singleOutputPath, batchOutputPath]
  refine ⟨?_, hidem, ?_, ⟨?_, hself p⟩, ?_, ?_⟩
  · rw [hform]
    exact hasSuffix_append _ _
  · rw [hsingle, hsingle, hidem]
  · intro h
    rw [← h, hform]
    exact ext_append_webp _
  · intro hext
    have hp := hself p hext
    rw [hp]
    refine ⟨rfl, ?_, ?_⟩
    · intro file w1 img w2 hopen hdec
      exact convertImage_reaches_create S p p q w file w1 img w2 hopen hdec
    · intro hnone
      generalize hconv : convertImage S p p q w = r at hnone
      obtain ⟨err, w1, calls⟩ := r
      simp only at hnone
      subst hnone
      exact (convertImage_success_creates S p p q w w1 calls hconv).2
  · intro hfiles hq hdir t ht hext hpc
    have hd : (checkOutputDir S a.outputDir w).1 = true := by
      rw [hdir]
      rfl
    obtain ⟨s, inv, hs | hs⟩ := accepted_shape S a w schedule q hfiles hq hd
    all_goals
      rw [hs] at ht
      obtain ⟨w0, w1, hconv⟩ := inv.origin t ht hpc
      rw [hdir, hself t.path hext] at hconv
      refine ⟨⟨w0, w1, hconv⟩, ?_⟩
      intro hnone
      rw [hnone] at hconv
      exact convertImage_success_creates S t.path t.path q w0 w1 t.calls hconv

theorem C11_resolver_idempotent_witness :
    filepath.Ext "/a/x.webp".toList = webpExt
      ∧ (convertImage Sample.lenient "/a/x.webp".toList
            (batchOutputPath [] "/a/x.webp".toList) 80 []).1 = none
      ∧ Call.osCreate "/a/x.webp".toList
          ∈ (convertImage Sample.lenient "/a/x.webp".toList
              (batchOutputPath [] "/a/x.webp".toList) 80 []).2.2
      ∧ (convertImages Sample.lenient Sample.again [] [0, 0, 0]).world = ["/a/x.webp".toList] :=
  ⟨by decide, by decide,
    ((C11_resolver_idempotent Sample.lenient "/a/x.webp".toList 80 [] Sample.again
      [0, 0, 0]).2.2.2.2.1 (by decide)).2.2 (by decide),
    by decide⟩
